import Mathlib

/-!
# The `pratt_parser` lexer: a shallow embedding and its verified properties

The development embeds `lexer/lexer.go` of the repository.

* A Go `string` is modelled as a `List Char`.  Every pattern of the rule table
  matches ASCII characters only, so the text consumed before the cursor is always
  ASCII and byte offsets coincide with character offsets.
* The `regexp` package is modelled by a small backtracking matcher (`Regexp.run`)
  that lists the possible matches at the start of a text in the preference order of
  Go (leftmost-first); `FindStringIndex` scans the start offsets from left to right.
* The rule table built by `createLexer` never changes, so it is kept as the constant
  `patterns`, and the scanner state `Lexer` holds the three mutable fields.
* A Go `panic` is an explicit outcome.  The scan loop is given a budget of
  `len(source)` iterations; `Outcome.unfinished` marks an exhausted budget and is
  shown never to occur (`Tokenize_ne_unfinished`).
* The cursor `pos` is an `int` that starts at zero and only grows by the length of a
  matched text; it is a natural number here.  The method `at` is not used by the
  scanner and is left out.
* `TokenKind`, `Token` and `NewToken` are declared in a file that is not among the
  sources; they follow the specification.
-/

namespace PrattLexer

/-! ## Tokens -/

/-- Modelled from the spec: the closed enumeration of token kinds of section 4.1; the
file that declares `TokenKind` is not among the sources. -/
inductive TokenKind where
  | EOF
  | NUMBER
  | OPEN_BRACKET
  | CLOSE_BRACKET
  | OPEN_CURLY
  | CLOSE_CURLY
  | OPEN_PAREN
  | CLOSE_PAREN
  | COMMA
  | SEMI_COLON
  | COLON
  | QUESTION
  | DOT
  | DOT_DOT
  | EQUALS
  | NOT_EQUALS
  | LESS
  | LESS_EQUALS
  | GREATER
  | GREATER_EQUALS
  | AND
  | OR
  | NOT
  | ASSIGNMENT
  | PLUS_EQUALS
  | MINUS_EQUALS
  | PLUS
  | MINUS
  | STAR
  | SLASH
  | PERCENT
  | PLUS_PLUS
  | MINUS_MINUS
  deriving DecidableEq

/-- Modelled from the spec: a token is an immutable pair of a kind and the literal text
that produced it (section 3); the file that declares `Token` is not among the sources. -/
structure Token where
  Kind : TokenKind
  Value : List Char
  deriving DecidableEq

/-- Modelled from the spec: the construction contract of section 4.1, which pairs the
kind and the matched text verbatim. -/
def NewToken (kind : TokenKind) (value : List Char) : Token :=
  ⟨kind, value⟩

/-! ## Regular expressions -/

/-- The fragment of the regular-expression syntax that the rule table uses. -/
inductive Regexp where
  /-- A literal character, possibly written with an escape. -/
  | lit (c : Char)
  /-- A character range such as `[0-9]`. -/
  | range (lo hi : Char)
  /-- A Perl character class such as `\s`, given by its membership test. -/
  | cls (p : Char → Bool)
  /-- Concatenation. -/
  | cat (a b : Regexp)
  /-- Greedy repetition `a+`. -/
  | plus (a : Regexp)
  /-- Greedy option `a?`. -/
  | quest (a : Regexp)

/-- The class `\s` of the regular-expression syntax: `[\t\n\f\r ]`. -/
def perlSpace (c : Char) : Bool :=
  c = '\t' || c = '\n' || c = '\x0c' || c = '\r' || c = ' '

/-- Membership in the range `lo-hi`. -/
def inRange (lo hi c : Char) : Bool :=
  decide (lo ≤ c) && decide (c ≤ hi)

/-- One character of input against a membership test. -/
def oneChar (p : Char → Bool) : List Char → List (List Char)
  | [] => []
  | c :: t => if p c then [t] else []

/-- Greedy repetition of the matcher `f`: after each iteration another one is tried
first, and stopping there is the second choice.  An iteration that consumes nothing is
not repeated. -/
def plusLoop (f : List Char → List (List Char)) : Nat → List Char → List (List Char)
  | 0, _ => []
  | n + 1, s =>
    (f s).flatMap fun r => (if r.length < s.length then plusLoop f n r else []) ++ [r]

/-- All the ways the expression matches at the start of the text, each given by the
text left after the match, in the order a backtracking search finds them. -/
def Regexp.run : Regexp → List Char → List (List Char)
  | .lit c, s => oneChar (fun d => d = c) s
  | .range lo hi, s => oneChar (inRange lo hi) s
  | .cls p, s => oneChar p s
  | .cat a b, s => (run a s).flatMap (run b)
  | .plus a, s => plusLoop (run a) (s.length + 1) s
  | .quest a, s => run a s ++ [s]

/-- The leftmost match in `s`, searched from the start offset `i` on: the offsets of
its start and of its end. -/
def findFrom (re : Regexp) : List Char → Nat → Option (Nat × Nat)
  | [], i =>
    match (re.run []).head? with
    | some _ => some (i, i)
    | none => none
  | c :: t, i =>
    match (re.run (c :: t)).head? with
    | some r => some (i, i + ((c :: t).length - r.length))
    | none => findFrom re t (i + 1)

/-- The method `FindStringIndex`: the location of the leftmost match, if any. -/
def FindStringIndex (re : Regexp) (s : List Char) : Option (Nat × Nat) :=
  findFrom re s 0

/-- The method `FindString`: the text of the leftmost match, empty when there is none. -/
def FindString (re : Regexp) (s : List Char) : List Char :=
  match FindStringIndex re s with
  | some (a, b) => (s.drop a).take (b - a)
  | none => []

/-! ## The scanner -/

/-- The mutable fields of the Go type `Lexer`. -/
structure Lexer where
  Tokens : List Token
  source : List Char
  pos : Nat
  deriving DecidableEq

def Lexer.advanceN (lexer : Lexer) (n : Nat) : Lexer :=
  { lexer with pos := lexer.pos + n }

def Lexer.push (lexer : Lexer) (token : Token) : Lexer :=
  { lexer with Tokens := lexer.Tokens ++ [token] }

def Lexer.remainder (lexer : Lexer) : List Char :=
  lexer.source.drop lexer.pos

def Lexer.atEOF (lexer : Lexer) : Bool :=
  decide (lexer.pos ≥ lexer.source.length)

/-- A rule action: the new scanner state, or the message of a panic. -/
abbrev regexHandler := Lexer → Regexp → Except (List Char) Lexer

structure regexPattern where
  Regex : Regexp
  handler : regexHandler

def defaultHandler (kind : TokenKind) (value : List Char) : regexHandler :=
  fun lex _ => .ok ((lex.advanceN value.length).push (NewToken kind value))

def numberTokenHandler : regexHandler :=
  fun lex regex =>
    let m := FindString regex lex.remainder
    .ok ((lex.push (NewToken .NUMBER m)).advanceN m.length)

/-- Indexing the location `match[1]` panics when no match was found. -/
def skipHandler : regexHandler :=
  fun lex regexp =>
    match FindStringIndex regexp lex.remainder with
    | some (_, e) => .ok (lex.advanceN e)
    | none => .error "runtime error: index out of range [1] with length 0".toList

/-- A two-character literal pattern. -/
def lit2 (a b : Char) : Regexp :=
  .cat (.lit a) (.lit b)

/-- The rule table of `createLexer`, in its order. -/
def patterns : List regexPattern :=
  [ ⟨.plus (.cls perlSpace), skipHandler⟩,
    ⟨.cat (.plus (.range '0' '9')) (.quest (.cat (.lit '.') (.plus (.range '0' '9')))),
      numberTokenHandler⟩,
    ⟨.lit '[', defaultHandler .OPEN_BRACKET "[".toList⟩,
    ⟨.lit ']', defaultHandler .CLOSE_BRACKET "]".toList⟩,
    ⟨.lit '\x7b', defaultHandler .OPEN_CURLY "\x7b".toList⟩,
    ⟨.lit '\x7d', defaultHandler .CLOSE_CURLY "\x7d".toList⟩,
    ⟨.lit '(', defaultHandler .OPEN_PAREN "(".toList⟩,
    ⟨.lit ')', defaultHandler .CLOSE_PAREN ")".toList⟩,
    ⟨lit2 '=' '=', defaultHandler .EQUALS "==".toList⟩,
    ⟨lit2 '!' '=', defaultHandler .NOT_EQUALS "!=".toList⟩,
    ⟨.lit '=', defaultHandler .ASSIGNMENT "=".toList⟩,
    ⟨.lit '!', defaultHandler .NOT "!".toList⟩,
    ⟨lit2 '<' '=', defaultHandler .LESS_EQUALS "<=".toList⟩,
    ⟨.lit '<', defaultHandler .LESS "<".toList⟩,
    ⟨lit2 '>' '=', defaultHandler .GREATER_EQUALS ">=".toList⟩,
    ⟨.lit '>', defaultHandler .GREATER ">".toList⟩,
    ⟨lit2 '|' '|', defaultHandler .OR "||".toList⟩,
    ⟨lit2 '&' '&', defaultHandler .AND "&&".toList⟩,
    ⟨lit2 '.' '.', defaultHandler .DOT_DOT "..".toList⟩,
    ⟨.lit '.', defaultHandler .DOT ".".toList⟩,
    ⟨.lit ';', defaultHandler .SEMI_COLON ";".toList⟩,
    ⟨.lit ':', defaultHandler .COLON ":".toList⟩,
    ⟨.lit '?', defaultHandler .QUESTION "?".toList⟩,
    ⟨.lit ',', defaultHandler .COMMA ",".toList⟩,
    ⟨lit2 '+' '+', defaultHandler .PLUS_PLUS "++".toList⟩,
    ⟨lit2 '-' '-', defaultHandler .MINUS_MINUS "--".toList⟩,
    ⟨lit2 '+' '=', defaultHandler .PLUS_EQUALS "+=".toList⟩,
    ⟨lit2 '-' '=', defaultHandler .MINUS_EQUALS "-=".toList⟩,
    ⟨.lit '+', defaultHandler .PLUS "+".toList⟩,
    ⟨.lit '-', defaultHandler .MINUS "-".toList⟩,
    ⟨.lit '/', defaultHandler .SLASH "/".toList⟩,
    ⟨.lit '*', defaultHandler .STAR "*".toList⟩,
    ⟨.lit '%', defaultHandler .PERCENT "%".toList⟩,
    ⟨lit2 '-' '-', defaultHandler .MINUS_MINUS "--".toList⟩,
    ⟨lit2 '-' '-', defaultHandler .MINUS_MINUS "--".toList⟩,
    ⟨lit2 '-' '-', defaultHandler .MINUS_MINUS "--".toList⟩,
    ⟨lit2 '-' '-', defaultHandler .MINUS_MINUS "--".toList⟩ ]

def createLexer (source : List Char) : Lexer :=
  { Tokens := [], source := source, pos := 0 }

/-- Whether the pattern matches "with a zero-offset start": the test
`location != nil && location[0] == 0` of the scan loop. -/
def matchesAtCursor (re : Regexp) (lex : Lexer) : Bool :=
  match FindStringIndex re lex.remainder with
  | some (start, _) => decide (start = 0)
  | none => false

/-- The inner loop of `Tokenize`: the action of the first rule of the list that matches
at the cursor, or `none` when no rule does (`matched` stays false). -/
def firstMatch : List regexPattern → Lexer → Option (Except (List Char) Lexer)
  | [], _ => none
  | pattern :: rest, lex =>
    if matchesAtCursor pattern.Regex lex then some (pattern.handler lex pattern.Regex)
    else firstMatch rest lex

/-- How a run of the scanner ends. -/
inductive Outcome (α : Type) where
  /-- The function returned a value. -/
  | returned (a : α)
  /-- The function panicked with this message. -/
  | panicked (msg : List Char)
  /-- The iteration budget of the model ran out. -/
  | unfinished
  deriving DecidableEq

/-- The message of the panic of `Tokenize`. -/
def unrecognized (near : List Char) : List Char :=
  "Lexer::Error -> unrecognized token near ".toList ++ near ++ "\n".toList

/-- The outer loop of `Tokenize`, run for at most `fuel` iterations. -/
def scan : Nat → Lexer → Outcome Lexer
  | 0, lex => if lex.atEOF then .returned lex else .unfinished
  | fuel + 1, lex =>
    if lex.atEOF then .returned lex
    else
      match firstMatch patterns lex with
      | none => .panicked (unrecognized lex.remainder)
      | some (.error msg) => .panicked msg
      | some (.ok next) => scan fuel next

def Tokenize (source : List Char) : Outcome (List Token) :=
  match scan source.length (createLexer source) with
  | .returned lex => .returned (lex.push (NewToken .EOF "EOF".toList)).Tokens
  | .panicked msg => .panicked msg
  | .unfinished => .unfinished

/-! ## The scan step in closed form

The definitions below restate the rule table and the scan loop as functions of the text
that remains; the lemmas of the next part show that the scanner computes them. -/

/-- The length of the preferred match of the expression at the start of `s`. -/
def matchLen (re : Regexp) (s : List Char) : Option Nat :=
  (re.run s).head?.map fun r => s.length - r.length

/-- The pattern of a literal text `c :: t`. -/
def litSeq (c : Char) : List Char → Regexp
  | [] => .lit c
  | d :: t => .cat (.lit c) (litSeq d t)

/-- The class `[0-9]`. -/
def digit (c : Char) : Bool := inRange '0' '9' c

/-- The text of the optional group `(\.[0-9]+)?` at the start of `r`. -/
def fraction : List Char → List Char
  | c :: d :: t => if c = '.' ∧ digit d = true then c :: (d :: t).takeWhile digit else []
  | _ => []

/-- The text the number pattern matches at the start of a text. -/
def numberText (s : List Char) : List Char :=
  s.takeWhile digit ++ fraction (s.dropWhile digit)

/-- A symbolic rule of the table: its kind and the characters of its lexeme. -/
structure Symbol where
  kind : TokenKind
  first : Char
  more : List Char

/-- The lexeme of a symbolic rule. -/
def Symbol.text (e : Symbol) : List Char := e.first :: e.more

/-- The rule of the table that a symbol stands for. -/
def Symbol.rule (e : Symbol) : regexPattern :=
  ⟨litSeq e.first e.more, defaultHandler e.kind e.text⟩

/-- The symbolic rules of the table, in its order. -/
def symbols : List Symbol :=
  [ ⟨.OPEN_BRACKET, '[', []⟩, ⟨.CLOSE_BRACKET, ']', []⟩,
    ⟨.OPEN_CURLY, '\x7b', []⟩, ⟨.CLOSE_CURLY, '\x7d', []⟩,
    ⟨.OPEN_PAREN, '(', []⟩, ⟨.CLOSE_PAREN, ')', []⟩,
    ⟨.EQUALS, '=', ['=']⟩, ⟨.NOT_EQUALS, '!', ['=']⟩,
    ⟨.ASSIGNMENT, '=', []⟩, ⟨.NOT, '!', []⟩,
    ⟨.LESS_EQUALS, '<', ['=']⟩, ⟨.LESS, '<', []⟩,
    ⟨.GREATER_EQUALS, '>', ['=']⟩, ⟨.GREATER, '>', []⟩,
    ⟨.OR, '|', ['|']⟩, ⟨.AND, '&', ['&']⟩,
    ⟨.DOT_DOT, '.', ['.']⟩, ⟨.DOT, '.', []⟩,
    ⟨.SEMI_COLON, ';', []⟩, ⟨.COLON, ':', []⟩, ⟨.QUESTION, '?', []⟩, ⟨.COMMA, ',', []⟩,
    ⟨.PLUS_PLUS, '+', ['+']⟩, ⟨.MINUS_MINUS, '-', ['-']⟩,
    ⟨.PLUS_EQUALS, '+', ['=']⟩, ⟨.MINUS_EQUALS, '-', ['=']⟩,
    ⟨.PLUS, '+', []⟩, ⟨.MINUS, '-', []⟩,
    ⟨.SLASH, '/', []⟩, ⟨.STAR, '*', []⟩, ⟨.PERCENT, '%', []⟩,
    ⟨.MINUS_MINUS, '-', ['-']⟩, ⟨.MINUS_MINUS, '-', ['-']⟩,
    ⟨.MINUS_MINUS, '-', ['-']⟩, ⟨.MINUS_MINUS, '-', ['-']⟩ ]

/-- The whitespace rule of the table. -/
def spaceRule : regexPattern :=
  ⟨.plus (.cls perlSpace), skipHandler⟩

/-- The number rule of the table. -/
def numberRule : regexPattern :=
  ⟨.cat (.plus (.range '0' '9')) (.quest (.cat (.lit '.') (.plus (.range '0' '9')))),
    numberTokenHandler⟩

/-- The first symbolic rule, in table order, whose lexeme starts the text. -/
def nextSymbol (s : List Char) : Option Symbol :=
  symbols.find? fun e => e.text.isPrefixOf s

/-- One scan step in closed form, on the text that remains: the kind of the token
emitted (none for skipped whitespace), the text consumed and the text left; `none` when
no rule matches. -/
def next : List Char → Option (Option TokenKind × List Char × List Char)
  | [] => none
  | c :: t =>
    if perlSpace c then
      some (none, (c :: t).takeWhile perlSpace, (c :: t).dropWhile perlSpace)
    else if digit c then
      some (some .NUMBER, numberText (c :: t), (c :: t).drop (numberText (c :: t)).length)
    else
      (nextSymbol (c :: t)).map fun e => (some e.kind, e.text, (c :: t).drop e.text.length)

/-- The tokens a step appends. -/
def emitted (kind : Option TokenKind) (text : List Char) : List Token :=
  match kind with
  | some k => [NewToken k text]
  | none => []

/-- The scan in closed form, on the text that remains: the tokens emitted before the
terminal one. -/
def lexRun : Nat → List Char → Outcome (List Token)
  | _, [] => .returned []
  | 0, _ :: _ => .unfinished
  | fuel + 1, c :: t =>
    match next (c :: t) with
    | none => .panicked (unrecognized (c :: t))
    | some (k, m, rest) =>
      match lexRun fuel rest with
      | .returned ts => .returned (emitted k m ++ ts)
      | .panicked msg => .panicked msg
      | .unfinished => .unfinished

/-- The scan in closed form with the budget `Tokenize` gives it. -/
def lexAll (s : List Char) : Outcome (List Token) :=
  lexRun s.length s

/-- The terminal token. -/
def eofToken : Token := NewToken .EOF "EOF".toList

/-! ## Notions used to state the properties -/

/-- The states of the scanner at the head of the scan loop, from `lex` on, over at most
`fuel` iterations: the trace of a run. -/
def trace : Nat → Lexer → List Lexer
  | 0, lex => [lex]
  | fuel + 1, lex =>
    if lex.atEOF then [lex]
    else
      match firstMatch patterns lex with
      | some (.ok nxt) => lex :: trace fuel nxt
      | _ => [lex]

/-- The kind-to-lexeme table of section 4.1 of the specification, for the symbolic
kinds. -/
def kindTable : List (TokenKind × List Char) :=
  [ (.OPEN_BRACKET, "[".toList), (.CLOSE_BRACKET, "]".toList),
    (.OPEN_CURLY, "\x7b".toList), (.CLOSE_CURLY, "\x7d".toList),
    (.OPEN_PAREN, "(".toList), (.CLOSE_PAREN, ")".toList),
    (.COMMA, ",".toList), (.SEMI_COLON, ";".toList), (.COLON, ":".toList),
    (.QUESTION, "?".toList), (.DOT, ".".toList), (.DOT_DOT, "..".toList),
    (.EQUALS, "==".toList), (.NOT_EQUALS, "!=".toList), (.LESS, "<".toList),
    (.LESS_EQUALS, "<=".toList), (.GREATER, ">".toList), (.GREATER_EQUALS, ">=".toList),
    (.AND, "&&".toList), (.OR, "||".toList), (.NOT, "!".toList),
    (.ASSIGNMENT, "=".toList), (.PLUS_EQUALS, "+=".toList), (.MINUS_EQUALS, "-=".toList),
    (.PLUS, "+".toList), (.MINUS, "-".toList), (.STAR, "*".toList), (.SLASH, "/".toList),
    (.PERCENT, "%".toList), (.PLUS_PLUS, "++".toList), (.MINUS_MINUS, "--".toList) ]

/-- A supported character: a whitespace character, a decimal digit, or a character that
occurs in a lexeme of the kind table. -/
def supportedChar (c : Char) : Bool :=
  perlSpace c || c.isDigit || kindTable.any fun p => p.2.contains c

/-- Every maximal run of consecutive characters `c` in `s` has even length: whenever
`s` splits into `pre ++ run ++ post` where `run` consists of `c` only and is bounded by
the ends of `s` or by other characters, `run` has even length. -/
def EvenRuns (c : Char) (s : List Char) : Prop :=
  ∀ pre run post : List Char, s = pre ++ run ++ post → (∀ x ∈ run, x = c) →
    pre.getLast? ≠ some c → post.head? ≠ some c → Even run.length

/-- A test for `EvenRuns`, read from a run boundary: a `c` must be followed by a second
`c`, after which the reading is at an even offset of the run again. -/
def evenRunsCheck (c : Char) : List Char → Bool
  | [] => true
  | [x] => decide (x ≠ c)
  | x :: y :: t => if x = c then decide (y = c) && evenRunsCheck c t else evenRunsCheck c (y :: t)

/-- The text between the cursors of two states of a run: `source[a.pos : b.pos]`. -/
def consumed (a b : Lexer) : List Char :=
  (a.source.drop a.pos).take (b.pos - a.pos)

/-- The texts consumed by the successive rule firings of a run, given by its trace. -/
def chunks : List Lexer → List (List Char)
  | a :: b :: rest => consumed a b :: chunks (b :: rest)
  | _ => []

/-- What a rule firing does between two successive states of a run: it appends one token
whose value is the text consumed, or it appends no token and the text consumed is a
non-empty run of whitespace. -/
def Firing (a b : Lexer) : Prop :=
  (∃ kind, b.Tokens = a.Tokens ++ [⟨kind, consumed a b⟩]) ∨
  (b.Tokens = a.Tokens ∧ consumed a b ≠ [] ∧ ∀ c ∈ consumed a b, perlSpace c = true)

/-- The length of the match of the pattern at the cursor, when the pattern matches
there. -/
def matchLengthAtCursor (re : Regexp) (lex : Lexer) : Option Nat :=
  match FindStringIndex re lex.remainder with
  | some (start, stop) => if start = 0 then some stop else none
  | none => none

/-- The longest-match strategy of section 4.2 of the specification: among the rules
that match at the cursor, the one whose match has maximal length, a tie going to the
earlier rule of the list; the rule is given with the length of its match. -/
def longestMatch : List regexPattern → Lexer → Option (regexPattern × Nat)
  | [], _ => none
  | pattern :: rest, lex =>
    match matchLengthAtCursor pattern.Regex lex, longestMatch rest lex with
    | some n, some (other, m) => if n < m then some (other, m) else some (pattern, n)
    | some n, none => some (pattern, n)
    | none, best => best

/-- The scan loop of a tokenizer that selects the rule by `longestMatch`. -/
def scanLongest : Nat → Lexer → Outcome Lexer
  | 0, lex => if lex.atEOF then .returned lex else .unfinished
  | fuel + 1, lex =>
    if lex.atEOF then .returned lex
    else
      match longestMatch patterns lex with
      | none => .panicked (unrecognized lex.remainder)
      | some (pattern, _) =>
        match pattern.handler lex pattern.Regex with
        | .error msg => .panicked msg
        | .ok nxt => scanLongest fuel nxt

/-- A longest-match tokenizer over the same rules. -/
def TokenizeLongest (source : List Char) : Outcome (List Token) :=
  match scanLongest source.length (createLexer source) with
  | .returned lex => .returned (lex.push (NewToken .EOF "EOF".toList)).Tokens
  | .panicked msg => .panicked msg
  | .unfinished => .unfinished

/-- The rule the inner loop of `Tokenize` selects at a state: a rule of the table that
matches at the cursor while no rule before it in the table does. -/
def Selects (lex : Lexer) (p : regexPattern) : Prop :=
  ∃ before after, patterns = before ++ p :: after ∧
    (∀ q ∈ before, matchesAtCursor q.Regex lex = false) ∧
    matchesAtCursor p.Regex lex = true

/-- The end of `Tokenize` after the scan loop: the terminal token is appended. -/
def finish : Outcome Lexer → Outcome (List Token)
  | .returned lex => .returned (lex.push (NewToken .EOF "EOF".toList)).Tokens
  | .panicked msg => .panicked msg
  | .unfinished => .unfinished

/-- The two-character operators and their kinds (section 4.2 of the specification). -/
def twoCharOps : List (TokenKind × List Char) :=
  [ (.EQUALS, ['=', '=']), (.NOT_EQUALS, ['!', '=']), (.LESS_EQUALS, ['<', '=']),
    (.GREATER_EQUALS, ['>', '=']), (.AND, ['&', '&']), (.OR, ['|', '|']),
    (.DOT_DOT, ['.', '.']), (.PLUS_PLUS, ['+', '+']), (.MINUS_MINUS, ['-', '-']),
    (.PLUS_EQUALS, ['+', '=']), (.MINUS_EQUALS, ['-', '=']) ]

/-- The position in the list of the rule the inner loop selects, counted from 0. -/
def selectedIndex : List regexPattern → Lexer → Option Nat
  | [], _ => none
  | pattern :: rest, lex =>
    if matchesAtCursor pattern.Regex lex then some 0
    else (selectedIndex rest lex).map (· + 1)

/-- The scan loop over a given rule table. -/
def scanWith (table : List regexPattern) : Nat → Lexer → Outcome Lexer
  | 0, lex => if lex.atEOF then .returned lex else .unfinished
  | fuel + 1, lex =>
    if lex.atEOF then .returned lex
    else
      match firstMatch table lex with
      | none => .panicked (unrecognized lex.remainder)
      | some (.error msg) => .panicked msg
      | some (.ok nxt) => scanWith table fuel nxt

/-- The scanner built from a given rule table. -/
def TokenizeWith (table : List regexPattern) (source : List Char) : Outcome (List Token) :=
  match scanWith table source.length (createLexer source) with
  | .returned lex => .returned (lex.push (NewToken .EOF "EOF".toList)).Tokens
  | .panicked msg => .panicked msg
  | .unfinished => .unfinished

/-- The duplicate rule of `--` that ends the table four times. -/
def duplicateRule : regexPattern :=
  ⟨lit2 '-' '-', defaultHandler .MINUS_MINUS "--".toList⟩

/-- The cursor positions at which the tokens of a run were emitted, read off its trace:
the cursor of each state whose firing appended a token. -/
def firingPositions : List Lexer → List Nat
  | a :: b :: rest =>
    if a.Tokens.length < b.Tokens.length then a.pos :: firingPositions (b :: rest)
    else firingPositions (b :: rest)
  | _ => []

/-- The characters of the exact success condition: a whitespace character, a decimal
digit, one of the single-character symbols, or one of `&` and the vertical bar. -/
def allowedChar (c : Char) : Bool :=
  perlSpace c || c.isDigit || "[]\x7b\x7d()=!<>.;:?,+-/*%".toList.contains c ||
    decide (c = '&') || decide (c = '|')

/-- The shape of a number literal: one or more decimal digits, optionally followed by a
single `.` and one or more decimal digits. -/
def NumberShape (v : List Char) : Prop :=
  ∃ d1 : List Char, d1 ≠ [] ∧ (∀ c ∈ d1, c.isDigit = true) ∧
    (v = d1 ∨ ∃ d2 : List Char, d2 ≠ [] ∧ (∀ c ∈ d2, c.isDigit = true) ∧ v = d1 ++ '.' :: d2)

/-! ## The scanner computes the closed form -/

theorem findFrom_start_le (re : Regexp) (s : List Char) (i a b : Nat)
    (h : findFrom re s i = some (a, b)) : i ≤ a := by
  induction s generalizing i with
  | nil =>
    simp only [findFrom] at h
    split at h <;> simp_all
  | cons c t ih =>
    simp only [findFrom] at h
    split at h
    · simp at h; omega
    · have := ih _ h; omega

theorem findStringIndex_of_matchLen {re : Regexp} {s : List Char} {n : Nat}
    (h : matchLen re s = some n) : FindStringIndex re s = some (0, n) := by
  unfold matchLen at h
  cases hr : (re.run s).head? with
  | none => simp [hr] at h
  | some r =>
    simp [hr] at h
    cases s with
    | nil =>
      have hn : n = 0 := by simpa using h.symm
      subst hn
      simp [FindStringIndex, findFrom, hr]
    | cons c t =>
      subst h
      simp [FindStringIndex, findFrom, hr]

theorem findStringIndex_of_matchLen_none {re : Regexp} {s : List Char}
    (h : matchLen re s = none) : ∀ b, FindStringIndex re s ≠ some (0, b) := by
  unfold matchLen at h
  simp at h
  intro b hb
  cases s with
  | nil => simp [FindStringIndex, findFrom, h] at hb
  | cons c t =>
    simp [FindStringIndex, findFrom, h] at hb
    have := findFrom_start_le _ _ _ _ _ hb
    omega

theorem matchesAtCursor_eq (re : Regexp) (lex : Lexer) :
    matchesAtCursor re lex = (matchLen re lex.remainder).isSome := by
  unfold matchesAtCursor
  cases h : matchLen re lex.remainder with
  | some n => simp [findStringIndex_of_matchLen h]
  | none =>
    have := findStringIndex_of_matchLen_none h
    cases h2 : FindStringIndex re lex.remainder with
    | none => simp
    | some ab =>
      obtain ⟨a, b⟩ := ab
      simp
      rintro rfl
      exact this b h2

theorem findString_of_matchLen {re : Regexp} {s : List Char} {n : Nat}
    (h : matchLen re s = some n) : FindString re s = s.take n := by
  simp [FindString, findStringIndex_of_matchLen h]

theorem run_litSeq (c : Char) (t s : List Char) :
    (litSeq c t).run s = if (c :: t).isPrefixOf s then [s.drop (t.length + 1)] else [] := by
  induction t generalizing c s with
  | nil =>
    cases s with
    | nil => simp [litSeq, Regexp.run, oneChar]
    | cons x s =>
      by_cases hx : x = c <;> simp [litSeq, Regexp.run, oneChar, hx, List.isPrefixOf]
      exact fun h => hx h.symm
  | cons d t ih =>
    cases s with
    | nil => simp [litSeq, Regexp.run, oneChar]
    | cons x s =>
      by_cases hx : x = c
      · subst hx
        simp [litSeq, Regexp.run, oneChar, ih]
      · have : ¬ c = x := fun h => hx h.symm
        simp [litSeq, Regexp.run, oneChar, hx, this]

theorem matchLen_litSeq (c : Char) (t s : List Char) :
    matchLen (litSeq c t) s = if (c :: t).isPrefixOf s then some (t.length + 1) else none := by
  unfold matchLen
  rw [run_litSeq]
  split
  · rename_i h
    have : (c :: t) <+: s := List.isPrefixOf_iff_prefix.mp h
    have hl := this.length_le
    simp at hl
    simp; omega
  · simp

/-! ### The whitespace and number patterns -/

@[simp] theorem oneChar_nil (p : Char → Bool) : oneChar p [] = [] := rfl

@[simp] theorem oneChar_cons (p : Char → Bool) (c : Char) (t : List Char) :
    oneChar p (c :: t) = if p c then [t] else [] := rfl

theorem run_range (lo hi : Char) : Regexp.run (.range lo hi) = oneChar (inRange lo hi) := by
  funext s; simp [Regexp.run]

theorem run_cls (p : Char → Bool) : Regexp.run (.cls p) = oneChar p := by
  funext s; simp [Regexp.run]

theorem drop_length_takeWhile (p : Char → Bool) (s : List Char) :
    s.drop (s.takeWhile p).length = s.dropWhile p := by
  induction s with
  | nil => rfl
  | cons c t ih =>
    by_cases hc : p c <;> simp [List.takeWhile_cons, List.dropWhile_cons, hc, ih]

theorem length_sub_dropWhile (p : Char → Bool) (s : List Char) :
    s.length - (s.dropWhile p).length = (s.takeWhile p).length := by
  have := congrArg List.length (List.takeWhile_append_dropWhile p s)
  rw [List.length_append] at this
  omega

theorem plusLoop_oneChar (p : Char → Bool) (n : Nat) (s : List Char) (h : s.length < n) :
    (plusLoop (oneChar p) n s).head? =
      if s.head?.any p then some (s.dropWhile p) else none := by
  induction n generalizing s with
  | zero => omega
  | succ n ih =>
    cases s with
    | nil => simp [plusLoop]
    | cons c t =>
      by_cases hc : p c
      · have ht := ih t (by simpa using h)
        simp only [plusLoop, oneChar_cons, hc, if_true, List.flatMap_cons, List.flatMap_nil,
          List.append_nil, List.length_cons, Nat.lt_succ_self, List.head?_append, ht]
        cases t with
        | nil => simp [hc]
        | cons d t =>
          by_cases hd : p d <;> simp [hc, hd]
      · simp [plusLoop, hc]

theorem plusLoop_oneChar_nil (p : Char → Bool) (n : Nat) (s : List Char)
    (h : s.head?.any p = false) : plusLoop (oneChar p) n s = [] := by
  cases n with
  | zero => rfl
  | succ n =>
    cases s with
    | nil => simp [plusLoop]
    | cons c t =>
      have : p c = false := by simpa using h
      simp [plusLoop, this]

theorem matchLen_space (s : List Char) :
    matchLen (.plus (.cls perlSpace)) s =
      if s.head?.any perlSpace then some (s.takeWhile perlSpace).length else none := by
  unfold matchLen
  simp only [Regexp.run, run_cls]
  rw [plusLoop_oneChar _ _ _ (Nat.lt_succ_self _)]
  split <;> simp [length_sub_dropWhile]

theorem head?_flatMap_of_head? {α β : Type} (l : List α) (f : α → List β) (x : α)
    (hx : l.head? = some x) (hf : f x ≠ []) : (l.flatMap f).head? = (f x).head? := by
  cases l with
  | nil => simp at hx
  | cons a l =>
    simp at hx; subst hx
    cases hfx : f a with
    | nil => exact absurd hfx hf
    | cons b bs => simp [hfx]

theorem run_fraction (r : List Char) :
    (Regexp.run (.quest (.cat (.lit '.') (.plus (.range '0' '9')))) r).head? =
      some (r.drop (fraction r).length) := by
  simp only [Regexp.run, run_range]
  match r with
  | [] => simp [fraction]
  | [c] =>
    by_cases hc : c = '.'
    · simp [fraction, hc, plusLoop]
    · simp [fraction, hc]
  | c :: d :: t =>
    by_cases hc : c = '.'
    · by_cases hd : digit d = true
      · have h1 := plusLoop_oneChar (inRange '0' '9') ((d :: t).length + 1) (d :: t)
          (Nat.lt_succ_self _)
        have hd2 : inRange '0' '9' d = true := hd
        simp only [List.head?_cons, Option.any_some, hd2, if_true] at h1
        simp only [oneChar_cons, decide_eq_true_eq, hc, if_true, List.flatMap_cons,
          List.flatMap_nil, List.append_nil, List.head?_append, h1, fraction, hd, and_self]
        have h2 := drop_length_takeWhile digit (d :: t)
        simpa using h2.symm
      · have hd2 : inRange '0' '9' d = false := by simpa [digit] using hd
        have h1 := plusLoop_oneChar_nil (inRange '0' '9') ((d :: t).length + 1) (d :: t)
          (by simp [hd2])
        simp only [oneChar_cons, decide_eq_true_eq, hc, if_true, List.flatMap_cons,
          List.flatMap_nil, List.append_nil, List.head?_append, h1, fraction, hd]
        simp
    · simp [fraction, hc]

theorem matchLen_number (s : List Char) :
    matchLen (.cat (.plus (.range '0' '9')) (.quest (.cat (.lit '.') (.plus (.range '0' '9'))))) s =
      if s.head?.any digit then some (numberText s).length else none := by
  unfold matchLen
  rw [Regexp.run]
  by_cases hs : s.head?.any digit = true
  · have h1 : (Regexp.run (.plus (.range '0' '9')) s).head? = some (s.dropWhile digit) := by
      simp only [Regexp.run, run_range]
      rw [plusLoop_oneChar _ _ _ (Nat.lt_succ_self _)]
      have : s.head?.any (inRange '0' '9') = true := hs
      simp [this]; rfl
    rw [head?_flatMap_of_head? _ _ _ h1 (by simp [Regexp.run]), run_fraction, hs]
    simp only [Option.map_some', if_true, numberText, List.length_append, List.length_drop]
    have := length_sub_dropWhile digit s
    have h3 := (List.dropWhile_suffix digit (l := s)).length_le
    have h4 : (fraction (s.dropWhile digit)).length ≤ (s.dropWhile digit).length := by
      generalize s.dropWhile digit = r
      match r with
      | [] => simp [fraction]
      | [c] => simp [fraction]
      | c :: d :: t =>
        simp only [fraction]
        split
        · have := (List.takeWhile_prefix digit (l := d :: t)).length_le
          simp at this ⊢; omega
        · simp
    congr 1
    omega
  · have hs2 : s.head?.any (inRange '0' '9') = false := by simpa using hs
    have : Regexp.run (.plus (.range '0' '9')) s = [] := by
      simp only [Regexp.run, run_range]
      exact plusLoop_oneChar_nil _ _ _ hs2
    simp [this, hs]

/-! ### One step of the scanner -/

theorem patterns_eq :
    patterns =
      ⟨.plus (.cls perlSpace), skipHandler⟩ ::
      ⟨.cat (.plus (.range '0' '9')) (.quest (.cat (.lit '.') (.plus (.range '0' '9')))),
        numberTokenHandler⟩ ::
      symbols.map Symbol.rule := rfl

theorem firstMatch_symbols (l : List Symbol) (lex : Lexer) :
    firstMatch (l.map Symbol.rule) lex =
      (l.find? fun e => e.text.isPrefixOf lex.remainder).map fun e =>
        Except.ok ⟨lex.Tokens ++ [NewToken e.kind e.text], lex.source,
          lex.pos + e.text.length⟩ := by
  induction l with
  | nil => rfl
  | cons e l ih =>
    simp only [List.map_cons, firstMatch, matchesAtCursor_eq, Symbol.rule, matchLen_litSeq,
      List.find?_cons]
    by_cases h : (e.first :: e.more).isPrefixOf lex.remainder = true
    · simp [h, Symbol.text, defaultHandler, Lexer.advanceN, Lexer.push]
    · have h2 : e.text.isPrefixOf lex.remainder = false := by
        simpa only [Symbol.text, Bool.not_eq_true] using h
      simp only [h, h2]
      simpa [Symbol.rule] using ih

theorem fraction_isPrefix (r : List Char) : fraction r <+: r := by
  match r with
  | [] => simp [fraction]
  | [c] => simp [fraction]
  | c :: d :: t =>
    simp only [fraction]
    split
    · exact (List.prefix_cons_inj c).mpr (List.takeWhile_prefix digit)
    · simp

theorem numberText_isPrefix (s : List Char) : numberText s <+: s := by
  unfold numberText
  conv => rhs; rw [← List.takeWhile_append_dropWhile digit s]
  exact (List.prefix_append_right_inj _).mpr (fraction_isPrefix _)

theorem firstMatch_cons (p : regexPattern) (rest : List regexPattern) (lex : Lexer) :
    firstMatch (p :: rest) lex =
      if matchesAtCursor p.Regex lex then some (p.handler lex p.Regex)
      else firstMatch rest lex := rfl

theorem firstMatch_patterns (lex : Lexer) :
    firstMatch patterns lex =
      (next lex.remainder).map fun x =>
        Except.ok ⟨lex.Tokens ++ emitted x.1 x.2.1, lex.source, lex.pos + x.2.1.length⟩ := by
  rw [patterns_eq, firstMatch_cons, firstMatch_cons, firstMatch_symbols]
  simp only [matchesAtCursor_eq, matchLen_space, matchLen_number]
  cases hrem : lex.remainder with
  | nil =>
    simp only [next, List.head?_nil, Option.any_none, Bool.false_eq_true, if_false,
      Option.isSome_none, Option.map_none', Option.map_eq_none', List.find?_eq_none]
    intro e _
    simp [Symbol.text, List.isPrefixOf]
  | cons c t =>
    simp only [next, List.head?_cons, Option.any_some]
    by_cases hc : perlSpace c = true
    · have hm := matchLen_space (c :: t)
      simp only [List.head?_cons, Option.any_some, hc, if_true] at hm
      simp [hc, skipHandler, hrem, findStringIndex_of_matchLen hm, Lexer.advanceN, emitted]
    · by_cases hd : digit c = true
      · have hm := matchLen_number (c :: t)
        simp only [List.head?_cons, Option.any_some, hd, if_true] at hm
        have ht : List.take (numberText (c :: t)).length (c :: t) = numberText (c :: t) :=
          List.prefix_iff_eq_take.mp (numberText_isPrefix _) |>.symm
        simp [hc, hd, numberTokenHandler, hrem, findString_of_matchLen hm, ht, Lexer.advanceN,
          Lexer.push, emitted]
      · simp only [hc, hd, Bool.false_eq_true, if_false, Option.isSome_none, nextSymbol,
          Option.map_map]
        rfl

/-! ### The scan loop -/

theorem next_split {s m rest : List Char} {k : Option TokenKind}
    (h : next s = some (k, m, rest)) : s = m ++ rest ∧ m ≠ [] := by
  cases s with
  | nil => simp [next] at h
  | cons c t =>
    simp only [next] at h
    split at h
    · rename_i hc
      simp only [Option.some.injEq, Prod.mk.injEq] at h
      obtain ⟨-, rfl, rfl⟩ := h
      refine ⟨(List.takeWhile_append_dropWhile _ _).symm, ?_⟩
      simp [List.takeWhile_cons, hc]
    · split at h
      · rename_i hd
        simp only [Option.some.injEq, Prod.mk.injEq] at h
        obtain ⟨-, rfl, rfl⟩ := h
        constructor
        · have := numberText_isPrefix (c :: t)
          rw [List.prefix_iff_eq_take] at this
          conv => lhs; rw [← List.take_append_drop (numberText (c :: t)).length (c :: t)]
          rw [← this]
        · simp [numberText, List.takeWhile_cons, hd]
      · cases hs : nextSymbol (c :: t) with
        | none => simp [hs] at h
        | some e =>
          simp only [hs, Option.map_some', Option.some.injEq, Prod.mk.injEq] at h
          obtain ⟨-, rfl, rfl⟩ := h
          have hp := List.find?_some hs
          have hp2 : e.text <+: c :: t := List.isPrefixOf_iff_prefix.mp hp
          constructor
          · rw [List.prefix_iff_eq_take] at hp2
            conv => lhs; rw [← List.take_append_drop e.text.length (c :: t)]
            rw [← hp2]
          · simp [Symbol.text]

theorem atEOF_iff (lex : Lexer) : lex.atEOF = true ↔ lex.remainder = [] := by
  simp [Lexer.atEOF, Lexer.remainder, List.drop_eq_nil_iff]

theorem scan_eq (fuel : Nat) (lex : Lexer) (hpos : lex.pos ≤ lex.source.length) :
    scan fuel lex =
      match lexRun fuel lex.remainder with
      | .returned ts => .returned ⟨lex.Tokens ++ ts, lex.source, lex.source.length⟩
      | .panicked msg => .panicked msg
      | .unfinished => .unfinished := by
  induction fuel generalizing lex with
  | zero =>
    cases hrem : lex.remainder with
    | nil =>
      have h1 := (atEOF_iff lex).mpr hrem
      have h2 : lex.source.length ≤ lex.pos := by simpa [Lexer.atEOF] using h1
      have h3 : lex.pos = lex.source.length := Nat.le_antisymm hpos h2
      simp only [scan, h1, if_true, lexRun, List.append_nil]
      rw [← h3]
    | cons c t =>
      have h1 : lex.atEOF = false := by
        cases h : lex.atEOF with
        | false => rfl
        | true => rw [(atEOF_iff lex).mp h] at hrem; cases hrem
      simp [scan, h1, lexRun]
  | succ fuel ih =>
    cases hrem : lex.remainder with
    | nil =>
      have h1 := (atEOF_iff lex).mpr hrem
      have h2 : lex.source.length ≤ lex.pos := by simpa [Lexer.atEOF] using h1
      have h3 : lex.pos = lex.source.length := Nat.le_antisymm hpos h2
      simp only [scan, h1, if_true, lexRun, List.append_nil]
      rw [← h3]
    | cons c t =>
      have h1 : lex.atEOF = false := by
        cases h : lex.atEOF with
        | false => rfl
        | true => rw [(atEOF_iff lex).mp h] at hrem; cases hrem
      simp only [scan, h1, Bool.false_eq_true, if_false, firstMatch_patterns, hrem, lexRun]
      cases hn : next (c :: t) with
      | none => simp
      | some x =>
        obtain ⟨k, m, rest⟩ := x
        obtain ⟨hsplit, -⟩ := next_split hn
        have hlen : m.length + rest.length + lex.pos = lex.source.length := by
          have := congrArg List.length hrem
          simp only [Lexer.remainder, List.length_drop, hsplit, List.length_append] at this
          omega
        have hrem2 : (Lexer.mk (lex.Tokens ++ emitted k m) lex.source
            (lex.pos + m.length)).remainder = rest := by
          simp only [Lexer.remainder] at hrem ⊢
          rw [← List.drop_drop, hrem, hsplit, List.drop_left]
        have := ih ⟨lex.Tokens ++ emitted k m, lex.source, lex.pos + m.length⟩
          (by simp only; omega)
        simp only [Option.map_some', this, hrem2]
        cases lexRun fuel rest <;> simp

theorem Tokenize_eq (s : List Char) :
    Tokenize s =
      match lexAll s with
      | .returned ts => .returned (ts ++ [eofToken])
      | .panicked msg => .panicked msg
      | .unfinished => .unfinished := by
  unfold Tokenize lexAll
  rw [scan_eq _ _ (Nat.zero_le _)]
  simp only [createLexer, Lexer.remainder, List.drop_zero]
  cases lexRun s.length s <;> simp [Lexer.push, eofToken]

theorem lexRun_of_le (n : Nat) (s : List Char) (h : s.length ≤ n) :
    lexRun n s = lexRun s.length s := by
  induction n using Nat.strong_induction_on generalizing s with
  | _ n ih =>
    cases s with
    | nil => cases n <;> rfl
    | cons c t =>
      cases n with
      | zero => simp at h
      | succ n =>
        simp only [List.length_cons, lexRun]
        cases hn : next (c :: t) with
        | none => rfl
        | some x =>
          obtain ⟨k, m, rest⟩ := x
          obtain ⟨hsplit, hm⟩ := next_split hn
          have hlen : rest.length < (c :: t).length := by
            have := congrArg List.length hsplit
            have : 0 < m.length := List.length_pos.mpr hm
            simp only [List.length_append] at *
            omega
          simp only [List.length_cons] at hlen h
          simp only
          rw [ih n (Nat.lt_succ_self _) rest (by omega),
            ih t.length (by omega) rest (by omega)]

theorem lexAll_nil : lexAll [] = .returned [] := rfl

theorem lexAll_of_next {s m rest : List Char} {k : Option TokenKind}
    (h : next s = some (k, m, rest)) :
    lexAll s =
      match lexAll rest with
      | .returned ts => .returned (emitted k m ++ ts)
      | .panicked msg => .panicked msg
      | .unfinished => .unfinished := by
  obtain ⟨hsplit, hm⟩ := next_split h
  cases s with
  | nil => simp [next] at h
  | cons c t =>
    have hlen : rest.length ≤ t.length := by
      have := congrArg List.length hsplit
      have : 0 < m.length := List.length_pos.mpr hm
      simp only [List.length_append, List.length_cons] at *
      omega
    simp only [lexAll, List.length_cons, lexRun, h]
    rw [lexRun_of_le _ _ hlen]

theorem lexAll_of_next_none {s : List Char} (hs : s ≠ []) (h : next s = none) :
    lexAll s = .panicked (unrecognized s) := by
  cases s with
  | nil => exact absurd rfl hs
  | cons c t => simp only [lexAll, List.length_cons, lexRun, h]

theorem lexAll_ne_unfinished (s : List Char) : lexAll s ≠ .unfinished := by
  suffices H : ∀ n (s : List Char), s.length = n → lexAll s ≠ .unfinished from H _ s rfl
  intro n
  induction n using Nat.strong_induction_on with
  | _ n ih =>
    intro s h
    cases s with
    | nil => simp [lexAll_nil]
    | cons c t =>
      cases hn : next (c :: t) with
      | none => simp [lexAll_of_next_none (by simp) hn]
      | some x =>
        obtain ⟨k, m, rest⟩ := x
        obtain ⟨hsplit, hm⟩ := next_split hn
        have hlen : rest.length < n := by
          have := congrArg List.length hsplit
          have : 0 < m.length := List.length_pos.mpr hm
          simp only [List.length_append] at *
          omega
        have := ih rest.length hlen rest rfl
        rw [lexAll_of_next hn]
        cases hr : lexAll rest <;> simp_all

/-! ### Consequences of the closed form -/

theorem next_rest_length {s m rest : List Char} {k : Option TokenKind}
    (h : next s = some (k, m, rest)) : rest.length < s.length := by
  obtain ⟨hsplit, hm⟩ := next_split h
  have h1 := congrArg List.length hsplit
  have h2 : 0 < m.length := List.length_pos.mpr hm
  rw [List.length_append] at h1
  omega

theorem lexAll_induction {P : List Char → List Token → Prop} (hnil : P [] [])
    (hstep : ∀ s k m rest ts, next s = some (k, m, rest) → lexAll rest = .returned ts →
      P rest ts → P s (emitted k m ++ ts))
    (s : List Char) (ts : List Token) (h : lexAll s = .returned ts) : P s ts := by
  suffices H : ∀ n (s : List Char) ts, s.length = n → lexAll s = .returned ts → P s ts from
    H _ s ts rfl h
  intro n
  induction n using Nat.strong_induction_on with
  | _ n ih =>
    intro s ts hlen h
    cases s with
    | nil =>
      rw [lexAll_nil] at h
      cases h
      exact hnil
    | cons c t =>
      cases hn : next (c :: t) with
      | none =>
        rw [lexAll_of_next_none (by simp) hn] at h
        cases h
      | some x =>
        obtain ⟨k, m, rest⟩ := x
        rw [lexAll_of_next hn] at h
        cases hr : lexAll rest with
        | returned ts' =>
          rw [hr] at h
          simp only [Outcome.returned.injEq] at h
          subst h
          have hlt := next_rest_length hn
          exact hstep _ _ _ _ _ hn hr (ih rest.length (by omega) rest ts' rfl hr)
        | panicked msg => rw [hr] at h; cases h
        | unfinished => rw [hr] at h; cases h

theorem Tokenize_returned_iff (s : List Char) (tokens : List Token) :
    Tokenize s = .returned tokens ↔
      ∃ ts, lexAll s = .returned ts ∧ tokens = ts ++ [eofToken] := by
  rw [Tokenize_eq]
  cases lexAll s <;> simp [eq_comm]

theorem Tokenize_panicked_iff (s msg : List Char) :
    Tokenize s = .panicked msg ↔ lexAll s = .panicked msg := by
  rw [Tokenize_eq]
  cases lexAll s <;> simp

theorem Tokenize_ne_unfinished (s : List Char) : Tokenize s ≠ .unfinished := by
  rw [Tokenize_eq]
  have := lexAll_ne_unfinished s
  cases h : lexAll s <;> simp_all

theorem symbols_kind_ne_eof : ∀ e ∈ symbols, e.kind ≠ .EOF := by decide

theorem next_kind_ne_eof {s m rest : List Char} {k : TokenKind}
    (h : next s = some (some k, m, rest)) : k ≠ .EOF := by
  cases s with
  | nil => simp [next] at h
  | cons c t =>
    simp only [next] at h
    split at h
    · simp at h
    · split at h
      · simp only [Option.some.injEq, Prod.mk.injEq] at h
        rw [← h.1]
        decide
      · cases hs : nextSymbol (c :: t) with
        | none => simp [hs] at h
        | some e =>
          simp only [hs, Option.map_some', Option.some.injEq, Prod.mk.injEq] at h
          rw [← h.1]
          exact symbols_kind_ne_eof e (List.mem_of_find?_eq_some hs)

theorem lexAll_kind_ne_eof (s : List Char) (ts : List Token) (h : lexAll s = .returned ts) :
    ∀ t ∈ ts, t.Kind ≠ .EOF := by
  refine lexAll_induction (P := fun _ ts => ∀ t ∈ ts, t.Kind ≠ .EOF) (by simp) ?_ s ts h
  intro s k m rest ts hn _ ih t ht
  rw [List.mem_append] at ht
  rcases ht with ht | ht
  · cases k with
    | none => simp [emitted] at ht
    | some k =>
      simp only [emitted, List.mem_singleton] at ht
      subst ht
      exact next_kind_ne_eof hn
  · exact ih t ht

theorem digit_eq_isDigit (c : Char) : digit c = c.isDigit := by
  simp only [digit, inRange, Char.isDigit, Char.le_def]
  rw [Bool.eq_iff_iff]
  simp only [Bool.and_eq_true, decide_eq_true_eq, ge_iff_le]
  have h0 : ('0' : Char).val = 48 := rfl
  have h9 : ('9' : Char).val = 57 := rfl
  rw [h0, h9]

/-! ### The trace of a run -/

theorem firstMatch_eq_none_iff (l : List regexPattern) (lex : Lexer) :
    firstMatch l lex = none ↔ ∀ p ∈ l, matchesAtCursor p.Regex lex = false := by
  induction l with
  | nil => simp [firstMatch]
  | cons p l ih =>
    rw [firstMatch_cons]
    by_cases h : matchesAtCursor p.Regex lex = true
    · simp [h]
    · simp [h, ih]

theorem firstMatch_patterns_ne_error (lex : Lexer) (msg : List Char) :
    firstMatch patterns lex ≠ some (.error msg) := by
  rw [firstMatch_patterns]
  cases next lex.remainder <;> simp

theorem firstMatch_patterns_source {lex nxt : Lexer}
    (h : firstMatch patterns lex = some (.ok nxt)) : nxt.source = lex.source := by
  rw [firstMatch_patterns] at h
  cases hn : next lex.remainder with
  | none => simp [hn] at h
  | some x =>
    simp only [hn, Option.map_some', Option.some.injEq, Except.ok.injEq] at h
    rw [← h]

theorem trace_source (fuel : Nat) (lex lex' : Lexer) (h : lex' ∈ trace fuel lex) :
    lex'.source = lex.source := by
  induction fuel generalizing lex with
  | zero =>
    simp only [trace, List.mem_singleton] at h
    rw [h]
  | succ fuel ih =>
    simp only [trace] at h
    split at h
    · simp only [List.mem_singleton] at h
      rw [h]
    · split at h
      · rename_i nxt hf
        simp only [List.mem_cons] at h
        rcases h with h | h
        · rw [h]
        · rw [ih _ h, firstMatch_patterns_source hf]
      · simp only [List.mem_singleton] at h
        rw [h]

theorem scan_of_mem_trace (fuel : Nat) (lex lex' : Lexer) (h : lex' ∈ trace fuel lex)
    (heof : lex'.atEOF = false) (hnone : firstMatch patterns lex' = none) :
    scan fuel lex = .panicked (unrecognized lex'.remainder) ∨ scan fuel lex = .unfinished := by
  induction fuel generalizing lex with
  | zero =>
    simp only [trace, List.mem_singleton] at h
    subst h
    right
    simp [scan, heof]
  | succ fuel ih =>
    simp only [trace] at h
    by_cases hl : lex.atEOF = true
    · simp only [hl, if_true, List.mem_singleton] at h
      subst h
      rw [hl] at heof
      cases heof
    · simp only [hl, Bool.false_eq_true, if_false] at h
      simp only [scan, hl, Bool.false_eq_true, if_false]
      cases hf : firstMatch patterns lex with
      | none =>
        simp only [hf, List.mem_singleton] at h
        subst h
        left; rfl
      | some r =>
        cases r with
        | error msg => exact absurd hf (firstMatch_patterns_ne_error lex msg)
        | ok nxt =>
          simp only [hf, List.mem_cons] at h
          rcases h with h | h
          · subst h
            rw [hf] at hnone
            cases hnone
          · exact ih nxt h

theorem mem_trace_of_scan_panicked (fuel : Nat) (lex : Lexer) (msg : List Char)
    (h : scan fuel lex = .panicked msg) :
    ∃ lex' ∈ trace fuel lex, lex'.atEOF = false ∧ firstMatch patterns lex' = none ∧
      msg = unrecognized lex'.remainder := by
  induction fuel generalizing lex with
  | zero =>
    simp only [scan] at h
    split at h <;> cases h
  | succ fuel ih =>
    simp only [scan] at h
    by_cases hl : lex.atEOF = true
    · simp [hl] at h
    · simp only [hl, Bool.false_eq_true, if_false] at h
      cases hf : firstMatch patterns lex with
      | none =>
        simp only [hf, Outcome.panicked.injEq] at h
        refine ⟨lex, ?_, by simpa using hl, hf, h.symm⟩
        simp [trace, hl, hf]
      | some r =>
        cases r with
        | error msg2 => exact absurd hf (firstMatch_patterns_ne_error lex msg2)
        | ok nxt =>
          simp only [hf] at h
          obtain ⟨lex', hmem, h1, h2, h3⟩ := ih nxt h
          refine ⟨lex', ?_, h1, h2, h3⟩
          simp [trace, hl, hf, hmem]

/-! ### Number literals -/

theorem digit_not_space {c : Char} (h : digit c = true) : perlSpace c = false := by
  cases hs : perlSpace c with
  | false => rfl
  | true =>
    simp only [perlSpace, Bool.or_eq_true, decide_eq_true_eq] at hs
    rcases hs with (((rfl | rfl) | rfl) | rfl) | rfl <;> revert h <;> decide

theorem takeWhile_digit_append (d rest : List Char) (hd : ∀ c ∈ d, digit c = true)
    (hr : rest.head?.any digit = false) : (d ++ rest).takeWhile digit = d := by
  rw [List.takeWhile_append_of_pos hd]
  cases rest with
  | nil => simp
  | cons x r =>
    have : digit x = false := by simpa using hr
    simp [List.takeWhile_cons, this]

theorem dropWhile_digit_append (d rest : List Char) (hd : ∀ c ∈ d, digit c = true)
    (hr : rest.head?.any digit = false) : (d ++ rest).dropWhile digit = rest := by
  rw [List.dropWhile_append_of_pos hd]
  cases rest with
  | nil => simp
  | cons x r =>
    have : digit x = false := by simpa using hr
    simp [List.dropWhile_cons, this]

theorem numberText_int (d rest : List Char) (hd : ∀ c ∈ d, digit c = true)
    (hr : rest.head?.any digit = false) (hf : fraction rest = []) :
    numberText (d ++ rest) = d := by
  simp [numberText, takeWhile_digit_append d rest hd hr, dropWhile_digit_append d rest hd hr, hf]

theorem numberText_frac (d1 d2 rest : List Char) (h1 : ∀ c ∈ d1, digit c = true)
    (h2 : ∀ c ∈ d2, digit c = true) (hne : d2 ≠ []) (hr : rest.head?.any digit = false) :
    numberText (d1 ++ '.' :: (d2 ++ rest)) = d1 ++ '.' :: d2 := by
  have hdot : ('.' :: (d2 ++ rest)).head?.any digit = false := by
    simp only [List.head?_cons, Option.any_some]
    decide
  simp only [numberText, takeWhile_digit_append d1 _ h1 hdot,
    dropWhile_digit_append d1 _ h1 hdot]
  cases d2 with
  | nil => exact absurd rfl hne
  | cons x d2 =>
    have hx : digit x = true := h2 x (by simp)
    have := takeWhile_digit_append (x :: d2) rest h2 hr
    simp only [List.cons_append] at this
    simp [fraction, hx, this]

theorem next_of_digit (c : Char) (t : List Char) (hc : digit c = true) :
    next (c :: t) =
      some (some .NUMBER, numberText (c :: t), (c :: t).drop (numberText (c :: t)).length) := by
  simp [next, digit_not_space hc, hc]

theorem next_number (d rest : List Char) (hne : d ≠ []) (h : numberText (d ++ rest) = d)
    (hd : ∀ c ∈ d, digit c = true) : next (d ++ rest) = some (some .NUMBER, d, rest) := by
  cases d with
  | nil => exact absurd rfl hne
  | cons c t =>
    have hc : digit c = true := hd c (by simp)
    rw [List.cons_append, next_of_digit c _ hc, ← List.cons_append, h]
    simp

theorem lexAll_step {s m rest : List Char} {k : Option TokenKind} {ts : List Token}
    (h : next s = some (k, m, rest)) (hr : lexAll rest = .returned ts) :
    lexAll s = .returned (emitted k m ++ ts) := by
  rw [lexAll_of_next h, hr]

theorem Tokenize_of_lexAll {s : List Char} {ts : List Token} (h : lexAll s = .returned ts) :
    Tokenize s = .returned (ts ++ [eofToken]) := by
  rw [Tokenize_eq, h]

/-! ### Runs of even length -/

theorem evenRuns_nil (c : Char) : EvenRuns c [] := by
  intro pre run post h _ _ _
  have : run = [] := by
    have := congrArg List.length h
    simp only [List.length_nil, List.length_append] at this
    exact List.eq_nil_of_length_eq_zero (by omega)
  simp [this]

theorem evenRuns_cons_ne {c x : Char} (hx : x ≠ c) (t : List Char) :
    EvenRuns c (x :: t) ↔ EvenRuns c t := by
  constructor
  · intro h pre run post hs hrun hpre hpost
    refine h (x :: pre) run post (by simp [hs]) hrun ?_ hpost
    cases pre with
    | nil => simpa using hx
    | cons p pre => simpa [List.getLast?_cons_cons] using hpre
  · intro h pre run post hs hrun hpre hpost
    cases pre with
    | nil =>
      cases run with
      | nil => simp
      | cons r run =>
        simp only [List.nil_append, List.cons_append, List.cons.injEq] at hs
        exact absurd (hrun r (by simp)) (by rw [← hs.1]; exact hx)
    | cons p pre =>
      simp only [List.cons_append, List.cons.injEq] at hs
      refine h pre run post hs.2 hrun ?_ hpost
      cases pre with
      | nil => simp
      | cons q pre => simpa [List.getLast?_cons_cons] using hpre

theorem evenRuns_cons_self (c : Char) (t : List Char) :
    EvenRuns c (c :: t) ↔ ∃ t', t = c :: t' ∧ EvenRuns c t' := by
  constructor
  · intro h
    cases t with
    | nil =>
      have := h [] [c] [] rfl (by simp) (by simp) (by simp)
      simp at this
    | cons y t' =>
      by_cases hy : y = c
      · subst hy
        refine ⟨t', rfl, ?_⟩
        intro pre run post hs hrun hpre hpost
        cases pre with
        | nil =>
          have := h [] (y :: y :: run) post (by simp [hs]) (by simpa using hrun) (by simp) hpost
          simpa [Nat.even_add_one, Nat.even_add] using this
        | cons p pre =>
          refine h (y :: y :: p :: pre) run post (by simp [hs]) hrun ?_ hpost
          simpa [List.getLast?_cons_cons] using hpre
      · have := h [] [c] (y :: t') rfl (by simp) (by simp) (by simpa using hy)
        simp at this
  · rintro ⟨t', rfl, h⟩
    intro pre run post hs hrun hpre hpost
    match pre, hpre, hs with
    | [], _, hs =>
      match run, hrun, hs with
      | [], _, _ => simp
      | [r], _, hs =>
        simp only [List.nil_append, List.cons_append, List.cons.injEq] at hs
        rw [← hs.2] at hpost
        simp at hpost
      | r :: r' :: run, hrun, hs =>
        simp only [List.nil_append, List.cons_append, List.cons.injEq] at hs
        have := h [] run post (by simp [hs.2.2]) (fun x hx => hrun x (by simp [hx])) (by simp)
          hpost
        simpa [Nat.even_add_one, Nat.even_add] using this
    | [p], hpre, hs =>
      simp only [List.cons_append, List.cons.injEq] at hs
      rw [← hs.1] at hpre
      simp at hpre
    | [p, q], hpre, hs =>
      simp only [List.cons_append, List.cons.injEq] at hs
      rw [← hs.2.1] at hpre
      simp at hpre
    | p :: q :: a :: pre, hpre, hs =>
      simp only [List.cons_append, List.cons.injEq] at hs
      refine h (a :: pre) run post (by simpa using hs.2.2) hrun ?_ hpost
      simpa [List.getLast?_cons_cons] using hpre

theorem evenRuns_iff_check (c : Char) (s : List Char) :
    EvenRuns c s ↔ evenRunsCheck c s = true := by
  suffices H : ∀ n (s : List Char), s.length = n → (EvenRuns c s ↔ evenRunsCheck c s = true)
    from H _ s rfl
  intro n
  induction n using Nat.strong_induction_on with
  | _ n ih =>
    intro s hlen
    match s, hlen with
    | [], _ => simp [evenRuns_nil, evenRunsCheck]
    | [x], _ =>
      by_cases hx : x = c
      · subst hx
        simp [evenRuns_cons_self, evenRunsCheck]
      · simp [evenRuns_cons_ne hx, evenRuns_nil, evenRunsCheck, hx]
    | x :: y :: t, hlen =>
      simp only [List.length_cons] at hlen
      by_cases hx : x = c
      · subst hx
        rw [evenRuns_cons_self]
        simp only [evenRunsCheck, if_true, Bool.and_eq_true, decide_eq_true_eq,
          List.cons.injEq, ← ih t.length (by omega) t rfl]
        constructor
        · rintro ⟨t', ⟨rfl, rfl⟩, h⟩
          exact ⟨rfl, h⟩
        · rintro ⟨rfl, h⟩
          exact ⟨t, ⟨rfl, rfl⟩, h⟩
      · rw [evenRuns_cons_ne hx]
        simp only [evenRunsCheck, hx, if_false]
        exact ih (t.length + 1) (by omega) (y :: t) rfl

theorem evenRuns_of_append {a : Char} (m rest : List Char) (hm : ∀ x ∈ m, x ≠ a)
    (h : EvenRuns a (m ++ rest)) : EvenRuns a rest := by
  induction m with
  | nil => simpa using h
  | cons x m ih =>
    rw [List.cons_append, evenRuns_cons_ne (hm x (by simp))] at h
    exact ih (fun y hy => hm y (by simp [hy])) h

theorem fraction_chars (r : List Char) : ∀ x ∈ fraction r, digit x = true ∨ x = '.' := by
  match r with
  | [] => simp [fraction]
  | [c] => simp [fraction]
  | c :: d :: t =>
    intro x hx
    simp only [fraction] at hx
    split at hx
    · rename_i hc
      simp only [List.mem_cons] at hx
      rcases hx with rfl | hx
      · exact Or.inr hc.1
      · exact Or.inl (List.mem_takeWhile_imp hx)
    · simp at hx

theorem numberText_chars (s : List Char) : ∀ x ∈ numberText s, digit x = true ∨ x = '.' := by
  intro x hx
  simp only [numberText, List.mem_append] at hx
  rcases hx with hx | hx
  · exact Or.inl (List.mem_takeWhile_imp hx)
  · exact fraction_chars _ x hx

theorem nextSymbol_some {s : List Char} {e : Symbol} (h : nextSymbol s = some e) :
    e ∈ symbols ∧ e.text <+: s := by
  unfold nextSymbol at h
  have h2 := List.find?_some h
  exact ⟨List.mem_of_find?_eq_some h, List.isPrefixOf_iff_prefix.mp h2⟩

theorem next_of_symbol {c : Char} {t : List Char} (hs : perlSpace c = false)
    (hd : digit c = false) :
    next (c :: t) =
      (nextSymbol (c :: t)).map fun e => (some e.kind, e.text, (c :: t).drop e.text.length) := by
  simp [next, hs, hd]

theorem nextSymbol_and (t : List Char) :
    nextSymbol ('&' :: '&' :: t) = some ⟨.AND, '&', ['&']⟩ := by
  simp [nextSymbol, symbols, Symbol.text, List.find?_cons]

theorem nextSymbol_or (t : List Char) :
    nextSymbol ('|' :: '|' :: t) = some ⟨.OR, '|', ['|']⟩ := by
  simp [nextSymbol, symbols, Symbol.text, List.find?_cons]

theorem nextSymbol_isSome_of_single {c : Char} (t : List Char)
    (h : ∃ e ∈ symbols, e.text = [c]) : ∃ e, nextSymbol (c :: t) = some e := by
  obtain ⟨e, he, ht⟩ := h
  cases hn : nextSymbol (c :: t) with
  | some e' => exact ⟨e', rfl⟩
  | none =>
    unfold nextSymbol at hn
    rw [List.find?_eq_none] at hn
    have := hn e he
    rw [ht] at this
    simp [List.isPrefixOf] at this

theorem kindTable_single :
    ∀ p ∈ kindTable, ∀ c ∈ p.2, c = '&' ∨ c = '|' ∨ ∃ e ∈ symbols, e.text = [c] := by
  decide

theorem symbols_chars :
    ∀ e ∈ symbols, e.first = '&' ∨ e.first = '|' ∨ ∀ x ∈ e.text, x ≠ '&' ∧ x ≠ '|' := by
  decide

theorem lexAll_of_good (s : List Char) (hsup : ∀ c ∈ s, supportedChar c = true)
    (hand : EvenRuns '&' s) (hor : EvenRuns '|' s) : ∃ ts, lexAll s = .returned ts := by
  suffices H : ∀ n (s : List Char), s.length = n → (∀ c ∈ s, supportedChar c = true) →
      EvenRuns '&' s → EvenRuns '|' s → ∃ ts, lexAll s = .returned ts from
    H _ s rfl hsup hand hor
  clear hsup hand hor s
  intro n
  induction n using Nat.strong_induction_on with
  | _ n ih =>
    intro s hlen hsup hand hor
    cases s with
    | nil => exact ⟨[], lexAll_nil⟩
    | cons c t =>
      -- it is enough to find a step whose rest satisfies the hypotheses again
      suffices hstep : ∃ k m rest, next (c :: t) = some (k, m, rest) ∧
          EvenRuns '&' rest ∧ EvenRuns '|' rest by
        obtain ⟨k, m, rest, hn, h1, h2⟩ := hstep
        have hlt := next_rest_length hn
        have hsplit := (next_split hn).1
        have hsup2 : ∀ x ∈ rest, supportedChar x = true := fun x hx =>
          hsup x (by rw [hsplit]; exact List.mem_append_right _ hx)
        obtain ⟨ts, hts⟩ := ih rest.length (by omega) rest rfl hsup2 h1 h2
        exact ⟨_, lexAll_step hn hts⟩
      by_cases hs : perlSpace c = true
      · have hn : next (c :: t) = some (none, (c :: t).takeWhile perlSpace,
            (c :: t).dropWhile perlSpace) := by simp [next, hs]
        have hsplit := (next_split hn).1
        have hm : ∀ a, perlSpace a = false → ∀ x ∈ (c :: t).takeWhile perlSpace, x ≠ a := by
          intro a ha x hx hxa
          have := List.mem_takeWhile_imp hx
          rw [hxa, ha] at this
          cases this
        refine ⟨_, _, _, hn, ?_, ?_⟩
        · exact evenRuns_of_append _ _ (hm '&' (by decide)) (hsplit ▸ hand)
        · exact evenRuns_of_append _ _ (hm '|' (by decide)) (hsplit ▸ hor)
      · have hs' : perlSpace c = false := by simpa using hs
        by_cases hd : digit c = true
        · have hn := next_of_digit c t hd
          have hsplit := (next_split hn).1
          have hm : ∀ a, digit a = false → a ≠ '.' → ∀ x ∈ numberText (c :: t), x ≠ a := by
            intro a ha hdot x hx hxa
            rcases numberText_chars _ x hx with h | h
            · rw [hxa, ha] at h
              cases h
            · exact hdot (hxa ▸ h)
          refine ⟨_, _, _, hn, ?_, ?_⟩
          · exact evenRuns_of_append _ _ (hm '&' (by decide) (by decide)) (hsplit ▸ hand)
          · exact evenRuns_of_append _ _ (hm '|' (by decide) (by decide)) (hsplit ▸ hor)
        · have hd' : digit c = false := by simpa using hd
          have hn := next_of_symbol (t := t) hs' hd'
          by_cases hca : c = '&'
          · subst hca
            obtain ⟨t', rfl, hand'⟩ := (evenRuns_cons_self _ _).mp hand
            rw [nextSymbol_and] at hn
            refine ⟨_, _, _, hn, by simpa [Symbol.text] using hand', ?_⟩
            have := evenRuns_of_append (a := '|') ['&', '&'] t' (by decide) hor
            simpa [Symbol.text] using this
          · by_cases hco : c = '|'
            · subst hco
              obtain ⟨t', rfl, hor'⟩ := (evenRuns_cons_self _ _).mp hor
              rw [nextSymbol_or] at hn
              refine ⟨_, _, _, hn, ?_, by simpa [Symbol.text] using hor'⟩
              have := evenRuns_of_append (a := '&') ['|', '|'] t' (by decide) hand
              simpa [Symbol.text] using this
            · have hc := hsup c (by simp)
              have hdig : c.isDigit = false := by rw [← digit_eq_isDigit]; exact hd'
              simp only [supportedChar, hs', hdig, Bool.or_self, Bool.false_or,
                List.any_eq_true] at hc
              obtain ⟨p, hp, hcp⟩ := hc
              have hmem : c ∈ p.2 := by simpa using hcp
              have hsingle : ∃ e ∈ symbols, e.text = [c] := by
                rcases kindTable_single p hp c hmem with h | h | h
                · exact absurd h hca
                · exact absurd h hco
                · exact h
              obtain ⟨e, he⟩ := nextSymbol_isSome_of_single t hsingle
              obtain ⟨hesym, hepre⟩ := nextSymbol_some he
              rw [he] at hn
              have hsplit := (next_split hn).1
              have hfirst : e.first = c := by
                obtain ⟨u, hu⟩ := hepre
                simp only [Symbol.text, List.cons_append, List.cons.injEq] at hu
                exact hu.1
              have hch : ∀ x ∈ e.text, x ≠ '&' ∧ x ≠ '|' := by
                rcases symbols_chars e hesym with h | h | h
                · exact absurd (hfirst ▸ h) hca
                · exact absurd (hfirst ▸ h) hco
                · exact h
              refine ⟨_, _, _, hn, ?_, ?_⟩
              · exact evenRuns_of_append _ _ (fun x hx => (hch x hx).1) (hsplit ▸ hand)
              · exact evenRuns_of_append _ _ (fun x hx => (hch x hx).2) (hsplit ▸ hor)

/-! ### The text consumed by a firing -/

theorem step_facts (lex : Lexer) (hpos : lex.pos ≤ lex.source.length)
    {k : Option TokenKind} {m rest : List Char} (hn : next lex.remainder = some (k, m, rest)) :
    firstMatch patterns lex =
        some (.ok ⟨lex.Tokens ++ emitted k m, lex.source, lex.pos + m.length⟩) ∧
      (Lexer.mk (lex.Tokens ++ emitted k m) lex.source (lex.pos + m.length)).remainder = rest ∧
      lex.pos + m.length ≤ lex.source.length ∧
      consumed lex ⟨lex.Tokens ++ emitted k m, lex.source, lex.pos + m.length⟩ = m := by
  obtain ⟨hsplit, -⟩ := next_split hn
  have hlen : m.length + rest.length + lex.pos = lex.source.length := by
    have := congrArg List.length hsplit
    simp only [Lexer.remainder, List.length_drop, List.length_append] at this
    omega
  refine ⟨by rw [firstMatch_patterns, hn]; rfl, ?_, by omega, ?_⟩
  · simp only [Lexer.remainder] at hsplit ⊢
    rw [← List.drop_drop, hsplit, List.drop_left]
  · simp only [consumed, Nat.add_sub_cancel_left]
    simp only [Lexer.remainder] at hsplit
    rw [hsplit, List.take_left]

theorem next_none_chars {s m rest : List Char} (h : next s = some (none, m, rest)) :
    ∀ c ∈ m, perlSpace c = true := by
  cases s with
  | nil => simp [next] at h
  | cons c t =>
    simp only [next] at h
    split at h
    · simp only [Option.some.injEq, Prod.mk.injEq, true_and] at h
      intro x hx
      rw [← h.1] at hx
      exact List.mem_takeWhile_imp hx
    · split at h
      · simp at h
      · cases hs : nextSymbol (c :: t) <;> simp [hs] at h

theorem symbols_no_space : ∀ e ∈ symbols, ∀ x ∈ e.text, perlSpace x = false := by decide

theorem next_some_chars {s m rest : List Char} {k : TokenKind}
    (h : next s = some (some k, m, rest)) : ∀ c ∈ m, perlSpace c = false := by
  cases s with
  | nil => simp [next] at h
  | cons c t =>
    simp only [next] at h
    split at h
    · simp at h
    · split at h
      · simp only [Option.some.injEq, Prod.mk.injEq] at h
        intro x hx
        rw [← h.2.1] at hx
        rcases numberText_chars _ x hx with hd | rfl
        · exact digit_not_space hd
        · decide
      · cases hs : nextSymbol (c :: t) with
        | none => simp [hs] at h
        | some e =>
          simp only [hs, Option.map_some', Option.some.injEq, Prod.mk.injEq] at h
          rw [← h.2.1]
          exact symbols_no_space e (nextSymbol_some hs).1

theorem lexRun_returned_cons {fuel : Nat} {c : Char} {t : List Char} {ts : List Token}
    (h : lexRun (fuel + 1) (c :: t) = .returned ts) :
    ∃ k m rest ts', next (c :: t) = some (k, m, rest) ∧ lexRun fuel rest = .returned ts' ∧
      ts = emitted k m ++ ts' := by
  simp only [lexRun] at h
  cases hn : next (c :: t) with
  | none => simp [hn] at h
  | some x =>
    obtain ⟨k, m, rest⟩ := x
    simp only [hn] at h
    cases hr : lexRun fuel rest with
    | returned ts' =>
      simp only [hr, Outcome.returned.injEq] at h
      exact ⟨k, m, rest, ts', rfl, hr, h.symm⟩
    | panicked msg => simp [hr] at h
    | unfinished => simp [hr] at h

theorem trace_props (fuel : Nat) (lex : Lexer) (hpos : lex.pos ≤ lex.source.length)
    (ts : List Token) (h : lexRun fuel lex.remainder = .returned ts) :
    (trace fuel lex).head? = some lex ∧
    (chunks (trace fuel lex)).flatten = lex.remainder ∧
    List.Chain' Firing (trace fuel lex) ∧
    ∃ final, (trace fuel lex).getLast? = some final ∧ final.Tokens = lex.Tokens ++ ts := by
  induction fuel generalizing lex ts with
  | zero =>
    cases hrem : lex.remainder with
    | nil =>
      rw [hrem] at h
      simp only [lexRun, Outcome.returned.injEq] at h
      subst h
      simp [trace, chunks]
    | cons c t =>
      rw [hrem] at h
      simp [lexRun] at h
  | succ fuel ih =>
    cases hrem : lex.remainder with
    | nil =>
      rw [hrem] at h
      simp only [lexRun, Outcome.returned.injEq] at h
      subst h
      simp [trace, (atEOF_iff lex).mpr hrem, chunks]
    | cons c t =>
      have heof : lex.atEOF = false := by
        cases he : lex.atEOF with
        | false => rfl
        | true => rw [(atEOF_iff lex).mp he] at hrem; cases hrem
      rw [hrem] at h
      obtain ⟨k, m, rest, ts', hn, hr, rfl⟩ := lexRun_returned_cons h
      rw [← hrem] at hn
      obtain ⟨hf, hrem2, hpos2, hcons⟩ := step_facts lex hpos hn
      rw [← hrem2] at hr
      obtain ⟨h1, h2, h3, final, h4, h5⟩ := ih _ hpos2 ts' hr
      have htr : trace (fuel + 1) lex =
          lex :: trace fuel ⟨lex.Tokens ++ emitted k m, lex.source, lex.pos + m.length⟩ := by
        simp [trace, heof, hf]
      rw [htr]
      obtain ⟨tl, htl⟩ : ∃ tl, trace fuel ⟨lex.Tokens ++ emitted k m, lex.source,
          lex.pos + m.length⟩ = ⟨lex.Tokens ++ emitted k m, lex.source, lex.pos + m.length⟩ :: tl := by
        cases hx : trace fuel ⟨lex.Tokens ++ emitted k m, lex.source, lex.pos + m.length⟩ with
        | nil => rw [hx] at h1; simp at h1
        | cons a tl =>
          rw [hx] at h1
          simp only [List.head?_cons, Option.some.injEq] at h1
          exact ⟨tl, by rw [h1]⟩
      refine ⟨rfl, ?_, ?_, final, ?_, ?_⟩
      · rw [htl] at h2 ⊢
        simp only [chunks, List.flatten_cons, hcons]
        rw [h2, hrem2, ← hrem]
        exact (next_split hn).1.symm
      · rw [List.chain'_cons']
        refine ⟨?_, h3⟩
        intro b hb
        rw [h1] at hb
        simp only [Option.mem_def, Option.some.injEq] at hb
        subst hb
        cases k with
        | none =>
          right
          rw [hcons]
          exact ⟨by simp [emitted], (next_split hn).2, next_none_chars hn⟩
        | some kd =>
          left
          exact ⟨kd, by rw [hcons]; rfl⟩
      · rw [htl] at h4 ⊢
        rw [List.getLast?_cons_cons]
        exact h4
      · rw [h5, List.append_assoc]

theorem lexAll_values (s : List Char) (ts : List Token) (h : lexAll s = .returned ts) :
    (ts.map Token.Value).flatten = s.filter fun c => !perlSpace c := by
  refine lexAll_induction
    (P := fun s ts => (ts.map Token.Value).flatten = s.filter fun c => !perlSpace c)
    (by simp) ?_ s ts h
  intro s k m rest ts hn _ ih
  rw [(next_split hn).1, List.filter_append, List.map_append, List.flatten_append, ih]
  congr 1
  cases k with
  | none =>
    have := next_none_chars hn
    simp only [emitted, List.map_nil, List.flatten_nil]
    symm
    rw [List.filter_eq_nil_iff]
    intro a ha
    simp [this a ha]
  | some kd =>
    have := next_some_chars hn
    simp only [emitted, NewToken, List.map_cons, List.map_nil, List.flatten_cons,
      List.flatten_nil, List.append_nil]
    symm
    rw [List.filter_eq_self]
    intro a ha
    simp [this a ha]

/-! ### Whitespace between two inputs -/

theorem next_of_space {c : Char} (t : List Char) (hc : perlSpace c = true) :
    next (c :: t) =
      some (none, (c :: t).takeWhile perlSpace, (c :: t).dropWhile perlSpace) := by
  simp [next, hc]

theorem lexAll_dropWhile_space (s : List Char) :
    lexAll s = lexAll (s.dropWhile perlSpace) := by
  cases s with
  | nil => rfl
  | cons c t =>
    by_cases hc : perlSpace c = true
    · rw [lexAll_of_next (next_of_space t hc)]
      cases lexAll ((c :: t).dropWhile perlSpace) <;> simp [emitted]
    · simp [List.dropWhile_cons, hc]

theorem lexAll_space_append (w b : List Char) (hw : ∀ c ∈ w, perlSpace c = true) :
    lexAll (w ++ b) = lexAll b := by
  rw [lexAll_dropWhile_space (w ++ b), List.dropWhile_append_of_pos hw,
    ← lexAll_dropWhile_space b]

theorem takeWhile_append_stop (p : Char → Bool) (l : List Char) {y : Char} (x : List Char)
    (hy : p y = false) : (l ++ y :: x).takeWhile p = l.takeWhile p := by
  induction l with
  | nil => simp [List.takeWhile_cons, hy]
  | cons a l ih =>
    by_cases ha : p a = true <;> simp [List.takeWhile_cons, ha, ih]

theorem dropWhile_append_stop (p : Char → Bool) (l : List Char) {y : Char} (x : List Char)
    (hy : p y = false) : (l ++ y :: x).dropWhile p = l.dropWhile p ++ y :: x := by
  induction l with
  | nil => simp [List.dropWhile_cons, hy]
  | cons a l ih =>
    by_cases ha : p a = true <;> simp [List.dropWhile_cons, ha, ih]

theorem fraction_append_stop (r : List Char) {y : Char} (x : List Char)
    (hy : digit y = false) (hdot : y ≠ '.') : fraction (r ++ y :: x) = fraction r := by
  match r with
  | [] =>
    cases x <;> simp [fraction, hdot]
  | [c] => simp [fraction, hy]
  | c :: d :: t =>
    have := takeWhile_append_stop digit (d :: t) x hy
    simp only [List.cons_append] at this
    simp only [List.cons_append, fraction, this]

theorem numberText_append_stop (s : List Char) {y : Char} (x : List Char)
    (hy : digit y = false) (hdot : y ≠ '.') : numberText (s ++ y :: x) = numberText s := by
  simp only [numberText, takeWhile_append_stop digit s x hy, dropWhile_append_stop digit s x hy,
    fraction_append_stop _ x hy hdot]

theorem prefix_of_prefix_append {u s : List Char} {y : Char} {x : List Char}
    (h : u <+: s ++ y :: x) (hy : y ∉ u) : u <+: s := by
  induction u generalizing s with
  | nil => exact List.nil_prefix
  | cons a u ih =>
    cases s with
    | nil =>
      rw [List.nil_append, List.cons_prefix_cons] at h
      exact absurd (by simp [h.1]) hy
    | cons b s =>
      rw [List.cons_append, List.cons_prefix_cons] at h
      rw [List.cons_prefix_cons]
      exact ⟨h.1, ih h.2 (fun hm => hy (by simp [hm]))⟩

theorem nextSymbol_append_space (s : List Char) {y : Char} (x : List Char)
    (hy : perlSpace y = true) : nextSymbol (s ++ y :: x) = nextSymbol s := by
  unfold nextSymbol
  have key : ∀ l : List Symbol, (∀ e ∈ l, e ∈ symbols) →
      l.find? (fun e => e.text.isPrefixOf (s ++ y :: x)) =
        l.find? (fun e => e.text.isPrefixOf s) := by
    intro l
    induction l with
    | nil => intro _; rfl
    | cons e l ih =>
      intro hl
      have he : e.text.isPrefixOf (s ++ y :: x) = e.text.isPrefixOf s := by
        rw [Bool.eq_iff_iff, List.isPrefixOf_iff_prefix, List.isPrefixOf_iff_prefix]
        constructor
        · intro h
          refine prefix_of_prefix_append h ?_
          intro hmem
          have := symbols_no_space e (hl e (by simp)) y hmem
          rw [hy] at this
          cases this
        · intro h
          exact h.trans (List.prefix_append _ _)
      simp only [List.find?_cons, he]
      rw [ih (fun e' he' => hl e' (by simp [he']))]
  exact key symbols (fun _ h => h)

theorem next_append_space {s m rest : List Char} {k : Option TokenKind} {y : Char}
    (x : List Char) (h : next s = some (k, m, rest)) (hy : perlSpace y = true)
    (hrest : k = none → rest ≠ []) : next (s ++ y :: x) = some (k, m, rest ++ y :: x) := by
  have hyd : digit y = false := by
    cases hd : digit y with
    | false => rfl
    | true => rw [digit_not_space hd] at hy; cases hy
  have hydot : y ≠ '.' := by
    rintro rfl
    revert hy
    decide
  have hlen : m.length ≤ s.length := by
    have := congrArg List.length (next_split h).1
    rw [List.length_append] at this
    omega
  cases s with
  | nil => simp [next] at h
  | cons c t =>
    by_cases hc : perlSpace c = true
    · rw [next_of_space t hc] at h
      simp only [Option.some.injEq, Prod.mk.injEq] at h
      obtain ⟨rfl, rfl, rfl⟩ := h
      have hne := hrest rfl
      rw [List.cons_append, next_of_space _ hc, ← List.cons_append]
      have h1 : ((c :: t) ++ y :: x).dropWhile perlSpace =
          (c :: t).dropWhile perlSpace ++ y :: x := by
        rw [List.dropWhile_append]
        simp [hne]
      have h2 : ((c :: t) ++ y :: x).takeWhile perlSpace = (c :: t).takeWhile perlSpace := by
        have h3 := List.takeWhile_append_dropWhile perlSpace ((c :: t) ++ y :: x)
        rw [h1, ← List.append_assoc] at h3
        have h4 := List.takeWhile_append_dropWhile perlSpace (c :: t)
        have h5 := List.append_cancel_right h3
        exact List.append_cancel_right (h5.trans h4.symm)
      rw [h1, h2]
    · have hc' : perlSpace c = false := by simpa using hc
      by_cases hd : digit c = true
      · rw [next_of_digit c t hd] at h
        simp only [Option.some.injEq, Prod.mk.injEq] at h
        obtain ⟨rfl, rfl, rfl⟩ := h
        rw [List.cons_append, next_of_digit _ _ hd, ← List.cons_append,
          numberText_append_stop _ x hyd hydot, List.drop_append_of_le_length hlen]
      · have hd' : digit c = false := by simpa using hd
        rw [next_of_symbol hc' hd'] at h
        rw [List.cons_append, next_of_symbol hc' hd', ← List.cons_append,
          nextSymbol_append_space _ x hy]
        cases hs : nextSymbol (c :: t) with
        | none => simp [hs] at h
        | some e =>
          simp only [hs, Option.map_some', Option.some.injEq, Prod.mk.injEq] at h
          obtain ⟨rfl, rfl, rfl⟩ := h
          simp only [Option.map_some']
          rw [List.drop_append_of_le_length hlen]

theorem lexAll_append_space (a : List Char) (xa : List Token) (h : lexAll a = .returned xa) :
    ∀ (y : Char) (x : List Char) (tx : List Token), perlSpace y = true →
      lexAll (y :: x) = .returned tx → lexAll (a ++ y :: x) = .returned (xa ++ tx) := by
  refine lexAll_induction
    (P := fun a xa => ∀ (y : Char) (x : List Char) (tx : List Token), perlSpace y = true →
      lexAll (y :: x) = .returned tx → lexAll (a ++ y :: x) = .returned (xa ++ tx))
    ?_ ?_ a xa h
  · intro y x tx _ hx
    simpa using hx
  · intro s k m rest ts hn hr ih y x tx hy hx
    by_cases hcase : k = none ∧ rest = []
    · obtain ⟨rfl, rfl⟩ := hcase
      have hs : s = m := by simpa using (next_split hn).1
      rw [lexAll_nil] at hr
      simp only [Outcome.returned.injEq] at hr
      subst hr
      rw [lexAll_space_append s _ (hs ▸ next_none_chars hn), hx]
      simp [emitted]
    · have hrest : k = none → rest ≠ [] := fun hk hr => hcase ⟨hk, hr⟩
      rw [lexAll_step (next_append_space x hn hy hrest) (ih y x tx hy hx), List.append_assoc]

/-! ### Numbers next to a point or a minus sign -/

theorem next_number_text (m rest : List Char) (hm : m.head?.any digit = true)
    (h : numberText (m ++ rest) = m) : next (m ++ rest) = some (some .NUMBER, m, rest) := by
  cases m with
  | nil => simp at hm
  | cons c t =>
    have hc : digit c = true := by simpa using hm
    rw [List.cons_append, next_of_digit c _ hc, ← List.cons_append, h]
    simp

theorem lexAll_integer (d : List Char) (hne : d ≠ []) (hd : ∀ c ∈ d, digit c = true) :
    lexAll d = .returned [⟨.NUMBER, d⟩] := by
  have hn := next_number d [] hne (numberText_int d [] hd rfl rfl) hd
  rw [List.append_nil] at hn
  exact lexAll_step hn lexAll_nil

theorem lexAll_decimal (d1 d2 : List Char) (h1 : d1 ≠ []) (h1d : ∀ c ∈ d1, digit c = true)
    (h2 : d2 ≠ []) (h2d : ∀ c ∈ d2, digit c = true) :
    lexAll (d1 ++ '.' :: d2) = .returned [⟨.NUMBER, d1 ++ '.' :: d2⟩] := by
  have ht := numberText_frac d1 d2 [] h1d h2d h2 rfl
  have hm : (d1 ++ '.' :: d2).head?.any digit = true := by
    cases d1 with
    | nil => exact absurd rfl h1
    | cons c t => simpa using h1d c (by simp)
  have hn := next_number_text (d1 ++ '.' :: d2) [] hm (by simpa using ht)
  rw [List.append_nil] at hn
  exact lexAll_step hn lexAll_nil

theorem next_dot_digit (c : Char) (t : List Char) (hc : digit c = true) :
    next ('.' :: c :: t) = some (some .DOT, ['.'], c :: t) := by
  have hne : ¬ c = '.' := by
    rintro rfl
    revert hc
    decide
  have h1 : perlSpace '.' = false := by decide
  have h2 : digit '.' = false := by decide
  rw [next_of_symbol h1 h2]
  have : nextSymbol ('.' :: c :: t) = some ⟨.DOT, '.', []⟩ := by
    have hne' : ¬ '.' = c := fun h => hne h.symm
    simp [nextSymbol, symbols, Symbol.text, List.find?_cons, List.isPrefixOf, hne, hne']
  rw [this]
  rfl

theorem next_minus_digit (c : Char) (t : List Char) (hc : digit c = true) :
    next ('-' :: c :: t) = some (some .MINUS, ['-'], c :: t) := by
  have hne1 : ¬ c = '-' := by
    rintro rfl
    revert hc
    decide
  have hne2 : ¬ c = '=' := by
    rintro rfl
    revert hc
    decide
  have h1 : perlSpace '-' = false := by decide
  have h2 : digit '-' = false := by decide
  rw [next_of_symbol h1 h2]
  have : nextSymbol ('-' :: c :: t) = some ⟨.MINUS, '-', []⟩ := by
    have hne1' : ¬ '-' = c := fun h => hne1 h.symm
    have hne2' : ¬ '=' = c := fun h => hne2 h.symm
    simp [nextSymbol, symbols, Symbol.text, List.find?_cons, List.isPrefixOf, hne1, hne2, hne1',
      hne2']
  rw [this]
  rfl

/-! ### First match and longest match -/

theorem matchLengthAtCursor_eq (re : Regexp) (lex : Lexer) :
    matchLengthAtCursor re lex = matchLen re lex.remainder := by
  unfold matchLengthAtCursor
  cases h : matchLen re lex.remainder with
  | some n => simp [findStringIndex_of_matchLen h]
  | none =>
    have := findStringIndex_of_matchLen_none h
    cases h2 : FindStringIndex re lex.remainder with
    | none => rfl
    | some ab =>
      obtain ⟨a, b⟩ := ab
      by_cases ha : a = 0
      · subst ha
        exact absurd h2 (this b)
      · simp [ha]

theorem longestMatch_mem {l : List regexPattern} {lex : Lexer} {q : regexPattern} {m : Nat}
    (h : longestMatch l lex = some (q, m)) :
    q ∈ l ∧ matchLen q.Regex lex.remainder = some m := by
  induction l generalizing q m with
  | nil => simp [longestMatch] at h
  | cons p l ih =>
    simp only [longestMatch, matchLengthAtCursor_eq] at h
    cases hp : matchLen p.Regex lex.remainder with
    | none =>
      simp only [hp] at h
      obtain ⟨h1, h2⟩ := ih h
      exact ⟨List.mem_cons_of_mem _ h1, h2⟩
    | some n =>
      cases hl : longestMatch l lex with
      | none =>
        simp only [hp, hl, Option.some.injEq, Prod.mk.injEq] at h
        obtain ⟨rfl, rfl⟩ := h
        exact ⟨List.mem_cons_self _ _, hp⟩
      | some b =>
        obtain ⟨q', m'⟩ := b
        simp only [hp, hl] at h
        split at h
        · simp only [Option.some.injEq, Prod.mk.injEq] at h
          obtain ⟨rfl, rfl⟩ := h
          obtain ⟨h1, h2⟩ := ih hl
          exact ⟨List.mem_cons_of_mem _ h1, h2⟩
        · simp only [Option.some.injEq, Prod.mk.injEq] at h
          obtain ⟨rfl, rfl⟩ := h
          exact ⟨List.mem_cons_self _ _, hp⟩

theorem matchLen_space_some {rem : List Char} {n : Nat}
    (h : matchLen (.plus (.cls perlSpace)) rem = some n) : rem.head?.any perlSpace = true := by
  rw [matchLen_space] at h
  by_cases hc : rem.head?.any perlSpace = true
  · exact hc
  · simp [hc] at h

theorem matchLen_number_some {rem : List Char} {n : Nat}
    (h : matchLen (.cat (.plus (.range '0' '9'))
      (.quest (.cat (.lit '.') (.plus (.range '0' '9'))))) rem = some n) :
    rem.head?.any digit = true := by
  rw [matchLen_number] at h
  by_cases hc : rem.head?.any digit = true
  · exact hc
  · simp [hc] at h

theorem matchLen_symbol_some {e : Symbol} {rem : List Char} {n : Nat}
    (h : matchLen e.rule.Regex rem = some n) :
    e.text <+: rem ∧ n = e.text.length ∧ rem.head? = some e.first := by
  simp only [Symbol.rule, matchLen_litSeq] at h
  by_cases hp : (e.first :: e.more).isPrefixOf rem = true
  · simp only [hp, if_true, Option.some.injEq] at h
    have hp2 : e.first :: e.more <+: rem := List.isPrefixOf_iff_prefix.mp hp
    refine ⟨hp2, by simp [Symbol.text, h], ?_⟩
    obtain ⟨u, hu⟩ := hp2
    rw [← hu]
    rfl
  · simp [hp] at h

theorem symbols_no_digit : ∀ e ∈ symbols, digit e.first = false := by decide

theorem symbols_first_is_longest :
    ∀ e ∈ symbols, (nextSymbol e.text).map Symbol.text = some e.text := by
  decide

theorem symbols_kind_of_text :
    ∀ e ∈ symbols, ∀ e' ∈ symbols, e.text = e'.text → e.kind = e'.kind := by
  decide

theorem find?_cross {α : Type} (P Q : α → Bool) (l : List α) (a b : α)
    (ha : l.find? P = some a) (hb : l.find? Q = some b) (hQa : Q a = true) (hPb : P b = true) :
    a = b := by
  induction l with
  | nil => simp at ha
  | cons x l ih =>
    rw [List.find?_cons] at ha hb
    by_cases hPx : P x = true
    · simp only [hPx, Option.some.injEq] at ha
      subst ha
      simp only [hQa, Option.some.injEq] at hb
      exact hb
    · by_cases hQx : Q x = true
      · simp only [hQx, Option.some.injEq] at hb
        subst hb
        exact absurd hPb hPx
      · simp only [hPx, hQx] at ha hb
        exact ih ha hb

theorem firstMatch_eq_find (l : List regexPattern) (lex : Lexer) :
    firstMatch l lex =
      (l.find? fun p => (matchLen p.Regex lex.remainder).isSome).map fun p =>
        p.handler lex p.Regex := by
  induction l with
  | nil => rfl
  | cons p l ih =>
    rw [firstMatch_cons, matchesAtCursor_eq, List.find?_cons]
    by_cases h : (matchLen p.Regex lex.remainder).isSome = true
    · simp [h]
    · simp [h, ih]

theorem longestMatch_none {l : List regexPattern} {lex : Lexer}
    (h : longestMatch l lex = none) : ∀ r ∈ l, matchLen r.Regex lex.remainder = none := by
  induction l with
  | nil => simp
  | cons p l ih =>
    simp only [longestMatch, matchLengthAtCursor_eq] at h
    cases hp : matchLen p.Regex lex.remainder with
    | none =>
      simp only [hp] at h
      intro r hr
      rcases List.mem_cons.mp hr with rfl | hr
      · exact hp
      · exact ih h r hr
    | some n =>
      cases hl : longestMatch l lex with
      | none => simp [hp, hl] at h
      | some b =>
        simp only [hp, hl] at h
        split at h <;> cases h

theorem longestMatch_some {l : List regexPattern} {lex : Lexer} {q : regexPattern} {m : Nat}
    (h : longestMatch l lex = some (q, m)) :
    l.find? (fun p => decide (matchLen p.Regex lex.remainder = some m)) = some q ∧
      ∀ r ∈ l, ∀ k, matchLen r.Regex lex.remainder = some k → k ≤ m := by
  induction l generalizing q m with
  | nil => simp [longestMatch] at h
  | cons p l ih =>
    simp only [longestMatch, matchLengthAtCursor_eq] at h
    cases hp : matchLen p.Regex lex.remainder with
    | none =>
      simp only [hp] at h
      obtain ⟨h1, h2⟩ := ih h
      refine ⟨by simp [List.find?_cons, hp, h1], ?_⟩
      intro r hr k hk
      rcases List.mem_cons.mp hr with rfl | hr
      · rw [hp] at hk
        cases hk
      · exact h2 r hr k hk
    | some n =>
      cases hl : longestMatch l lex with
      | none =>
        simp only [hp, hl, Option.some.injEq, Prod.mk.injEq] at h
        obtain ⟨rfl, rfl⟩ := h
        refine ⟨by simp [List.find?_cons, hp], ?_⟩
        intro r hr k hk
        rcases List.mem_cons.mp hr with rfl | hr
        · rw [hp] at hk
          simp only [Option.some.injEq] at hk
          omega
        · rw [longestMatch_none hl r hr] at hk
          cases hk
      | some b =>
        obtain ⟨q', m'⟩ := b
        obtain ⟨h1, h2⟩ := ih hl
        simp only [hp, hl] at h
        split at h
        · rename_i hlt
          simp only [Option.some.injEq, Prod.mk.injEq] at h
          obtain ⟨rfl, rfl⟩ := h
          have hne : ¬ n = m' := by omega
          refine ⟨by simp [List.find?_cons, hp, hne, h1], ?_⟩
          intro r hr k hk
          rcases List.mem_cons.mp hr with rfl | hr
          · rw [hp] at hk
            simp only [Option.some.injEq] at hk
            omega
          · exact h2 r hr k hk
        · rename_i hlt
          simp only [Option.some.injEq, Prod.mk.injEq] at h
          obtain ⟨rfl, rfl⟩ := h
          refine ⟨by simp [List.find?_cons, hp], ?_⟩
          intro r hr k hk
          rcases List.mem_cons.mp hr with rfl | hr
          · rw [hp] at hk
            simp only [Option.some.injEq] at hk
            omega
          · have := h2 r hr k hk
            omega

theorem longestMatch_eq_firstMatch (l : List regexPattern) (lex : Lexer)
    (hmax : ∀ p n, l.find? (fun p => (matchLen p.Regex lex.remainder).isSome) = some p →
      matchLen p.Regex lex.remainder = some n →
      ∀ r ∈ l, ∀ k, matchLen r.Regex lex.remainder = some k → k ≤ n) :
    (longestMatch l lex).map (fun b => b.1.handler lex b.1.Regex) = firstMatch l lex := by
  rw [firstMatch_eq_find]
  cases hl : longestMatch l lex with
  | none =>
    have hnone := longestMatch_none hl
    have : l.find? (fun p => (matchLen p.Regex lex.remainder).isSome) = none := by
      rw [List.find?_eq_none]
      intro r hr
      simp [hnone r hr]
    simp [this]
  | some b =>
    obtain ⟨q, m⟩ := b
    obtain ⟨hfind, hle⟩ := longestMatch_some hl
    have hq : matchLen q.Regex lex.remainder = some m := by simpa using List.find?_some hfind
    have hqmem := List.mem_of_find?_eq_some hfind
    cases hf : l.find? (fun p => (matchLen p.Regex lex.remainder).isSome) with
    | none =>
      rw [List.find?_eq_none] at hf
      have := hf q hqmem
      simp [hq] at this
    | some p =>
      have hp := List.find?_some hf
      obtain ⟨n, hn⟩ := Option.isSome_iff_exists.mp hp
      have h1 := hmax p n hf hn q hqmem m hq
      have h2 := hle p (List.mem_of_find?_eq_some hf) n hn
      have hnm : n = m := by omega
      subst hnm
      have := find?_cross _ _ l p q hf hfind (by simp [hn]) (by simp [hq])
      subst this
      rfl

theorem patterns_split : patterns = spaceRule :: numberRule :: symbols.map Symbol.rule := rfl

theorem pattern_cases {r : regexPattern} (hr : r ∈ patterns) {rem : List Char} {k : Nat}
    (hk : matchLen r.Regex rem = some k) :
    (r = spaceRule ∧ rem.head?.any perlSpace = true) ∨
    (r = numberRule ∧ rem.head?.any digit = true ∧ rem.head?.any perlSpace = false) ∨
    (∃ e ∈ symbols, r = e.rule ∧ e.text <+: rem ∧ k = e.text.length ∧
      rem.head?.any perlSpace = false ∧ rem.head?.any digit = false) := by
  rw [patterns_split] at hr
  simp only [List.mem_cons, List.mem_map] at hr
  rcases hr with rfl | rfl | ⟨e, he, rfl⟩
  · exact Or.inl ⟨rfl, matchLen_space_some hk⟩
  · have hd := matchLen_number_some hk
    refine Or.inr (Or.inl ⟨rfl, hd, ?_⟩)
    cases rem with
    | nil => simp at hd
    | cons c t => simpa using digit_not_space (by simpa using hd)
  · obtain ⟨h1, h2, h3⟩ := matchLen_symbol_some hk
    refine Or.inr (Or.inr ⟨e, he, rfl, h1, h2, ?_, ?_⟩)
    · rw [h3]
      simpa using symbols_no_space e he e.first (by simp [Symbol.text])
    · rw [h3]
      simpa using symbols_no_digit e he

theorem symbol_first_longest {rem : List Char} {e e' : Symbol}
    (he : nextSymbol rem = some e) (he' : e' ∈ symbols) (hp : e'.text <+: rem) :
    e'.text.length ≤ e.text.length := by
  by_contra hlt
  have hlt : e.text.length < e'.text.length := by omega
  obtain ⟨-, hep⟩ := nextSymbol_some he
  have hee : e.text <+: e'.text := List.prefix_of_prefix_length_le hep hp (by omega)
  have h0 := symbols_first_is_longest e' he'
  cases hn : nextSymbol e'.text with
  | none => simp [hn] at h0
  | some e0 =>
    simp only [hn, Option.map_some', Option.some.injEq] at h0
    have := find?_cross (fun x : Symbol => x.text.isPrefixOf rem)
      (fun x : Symbol => x.text.isPrefixOf e'.text) symbols e e0 he hn
      (List.isPrefixOf_iff_prefix.mpr hee) (List.isPrefixOf_iff_prefix.mpr (h0 ▸ hp))
    subst this
    rw [h0] at hlt
    omega

theorem find?_symbol_rules (rem : List Char) :
    (symbols.map Symbol.rule).find? (fun p => (matchLen p.Regex rem).isSome) =
      (nextSymbol rem).map Symbol.rule := by
  unfold nextSymbol
  generalize symbols = l
  induction l with
  | nil => rfl
  | cons e l ih =>
    simp only [List.map_cons, List.find?_cons, Symbol.rule, matchLen_litSeq]
    by_cases h : (e.first :: e.more).isPrefixOf rem = true
    · simp [h, Symbol.text, Symbol.rule]
    · have h2 : e.text.isPrefixOf rem = false := by
        simpa only [Symbol.text, Bool.not_eq_true] using h
      simp only [h, h2]
      simpa [Symbol.rule] using ih

theorem first_is_longest (rem : List Char) (p : regexPattern) (n : Nat)
    (hf : patterns.find? (fun p => (matchLen p.Regex rem).isSome) = some p)
    (hn : matchLen p.Regex rem = some n) :
    ∀ r ∈ patterns, ∀ k, matchLen r.Regex rem = some k → k ≤ n := by
  intro r hr k hk
  have hpm := List.mem_of_find?_eq_some hf
  rcases pattern_cases hpm hn with ⟨rfl, hs⟩ | ⟨rfl, hd, hs⟩ | ⟨e, he, rfl, hpre, hlen, hs, hd⟩
  · rcases pattern_cases hr hk with ⟨rfl, -⟩ | ⟨-, -, hs'⟩ | ⟨_, _, _, _, _, hs', _⟩
    · rw [hn] at hk
      simp only [Option.some.injEq] at hk
      omega
    · rw [hs] at hs'; cases hs'
    · rw [hs] at hs'; cases hs'
  · rcases pattern_cases hr hk with ⟨-, hs'⟩ | ⟨rfl, -, -⟩ | ⟨_, _, _, _, _, _, hd'⟩
    · rw [hs] at hs'; cases hs'
    · rw [hn] at hk
      simp only [Option.some.injEq] at hk
      omega
    · rw [hd] at hd'; cases hd'
  · rcases pattern_cases hr hk with ⟨-, hs'⟩ | ⟨-, hd', -⟩ | ⟨e', he', rfl, hpre', hlen', -, -⟩
    · rw [hs] at hs'; cases hs'
    · rw [hd] at hd'; cases hd'
    · -- the first matching rule is the first symbol whose lexeme starts the text
      have hsp : matchLen spaceRule.Regex rem = none := by
        cases h : matchLen spaceRule.Regex rem with
        | none => rfl
        | some j => rw [matchLen_space_some h] at hs; cases hs
      have hnum : matchLen numberRule.Regex rem = none := by
        cases h : matchLen numberRule.Regex rem with
        | none => rfl
        | some j => rw [matchLen_number_some h] at hd; cases hd
      rw [patterns_split, List.find?_cons, List.find?_cons, hsp, hnum] at hf
      simp only [Option.isSome_none] at hf
      rw [find?_symbol_rules] at hf
      cases hnx : nextSymbol rem with
      | none => simp [hnx] at hf
      | some e0 =>
        simp only [hnx, Option.map_some', Option.some.injEq] at hf
        have h1 := symbol_first_longest hnx he' hpre'
        have h2 : e0.text.length = n := by
          have hm : matchLen e0.rule.Regex rem = some n := by rw [hf]; exact hn
          exact (matchLen_symbol_some hm).2.1.symm
        omega

theorem same_length_same_action (lex : Lexer) (p q : regexPattern) (n : Nat)
    (hp : p ∈ patterns) (hq : q ∈ patterns)
    (hpn : matchLen p.Regex lex.remainder = some n)
    (hqn : matchLen q.Regex lex.remainder = some n) :
    p.handler lex p.Regex = q.handler lex q.Regex := by
  rcases pattern_cases hp hpn with ⟨rfl, hs⟩ | ⟨rfl, hd, hs⟩ | ⟨e, he, rfl, hpre, hlen, hs, hd⟩
  · rcases pattern_cases hq hqn with ⟨rfl, -⟩ | ⟨-, -, hs'⟩ | ⟨_, _, _, _, _, hs', _⟩
    · rfl
    · rw [hs] at hs'; cases hs'
    · rw [hs] at hs'; cases hs'
  · rcases pattern_cases hq hqn with ⟨-, hs'⟩ | ⟨rfl, -, -⟩ | ⟨_, _, _, _, _, _, hd'⟩
    · rw [hs] at hs'; cases hs'
    · rfl
    · rw [hd] at hd'; cases hd'
  · rcases pattern_cases hq hqn with ⟨-, hs'⟩ | ⟨-, hd', -⟩ | ⟨e', he', rfl, hpre', hlen', -, -⟩
    · rw [hs] at hs'; cases hs'
    · rw [hd] at hd'; cases hd'
    · have ht : e.text = e'.text := by
        rw [List.prefix_iff_eq_take] at hpre hpre'
        rw [hpre, hpre', ← hlen, ← hlen']
      have hk := symbols_kind_of_text e he e' he' ht
      simp only [Symbol.rule, defaultHandler, ht, hk]

theorem scanLongest_eq_scan (fuel : Nat) (lex : Lexer) : scanLongest fuel lex = scan fuel lex := by
  induction fuel generalizing lex with
  | zero => rfl
  | succ fuel ih =>
    simp only [scanLongest, scan]
    split
    · rfl
    · have h := longestMatch_eq_firstMatch patterns lex
        (fun p n hf hn => first_is_longest lex.remainder p n hf hn)
      rw [← h]
      cases hl : longestMatch patterns lex with
      | none => rfl
      | some b =>
        obtain ⟨q, m⟩ := b
        simp only [Option.map_some']
        cases q.handler lex q.Regex with
        | error msg => rfl
        | ok nxt => exact ih nxt

theorem Tokenize_eq_finish (source : List Char) :
    Tokenize source = finish (scan source.length (createLexer source)) := rfl

theorem firstMatch_of_split (before after : List regexPattern) (p : regexPattern)
    (lex : Lexer) (hb : ∀ q ∈ before, matchesAtCursor q.Regex lex = false)
    (hp : matchesAtCursor p.Regex lex = true) :
    firstMatch (before ++ p :: after) lex = some (p.handler lex p.Regex) := by
  induction before with
  | nil => simp [firstMatch_cons, hp]
  | cons q before ih =>
    rw [List.cons_append, firstMatch_cons, hb q (by simp)]
    simpa using ih (fun x hx => hb x (by simp [hx]))

theorem split_of_firstMatch (l : List regexPattern) (lex : Lexer)
    (x : Except (List Char) Lexer) (h : firstMatch l lex = some x) :
    ∃ before p after, l = before ++ p :: after ∧
      (∀ q ∈ before, matchesAtCursor q.Regex lex = false) ∧
      matchesAtCursor p.Regex lex = true ∧ x = p.handler lex p.Regex := by
  induction l with
  | nil => simp [firstMatch] at h
  | cons q l ih =>
    rw [firstMatch_cons] at h
    by_cases hq : matchesAtCursor q.Regex lex = true
    · simp only [hq, if_true, Option.some.injEq] at h
      exact ⟨[], q, l, rfl, by simp, hq, h.symm⟩
    · simp only [hq, Bool.false_eq_true, if_false] at h
      obtain ⟨before, p, after, h1, h2, h3, h4⟩ := ih h
      refine ⟨q :: before, p, after, by simp [h1], ?_, h3, h4⟩
      intro y hy
      rcases List.mem_cons.mp hy with rfl | hy
      · simpa using hq
      · exact h2 y hy

theorem firstMatch_of_selects {lex : Lexer} {p : regexPattern} (h : Selects lex p) :
    firstMatch patterns lex = some (p.handler lex p.Regex) := by
  obtain ⟨before, after, h1, h2, h3⟩ := h
  rw [h1]
  exact firstMatch_of_split before after p lex h2 h3

theorem next_two_char (kind : TokenKind) (a b : Char) (t : List Char)
    (h : (kind, [a, b]) ∈ twoCharOps) :
    next (a :: b :: t) = some (some kind, [a, b], t) := by
  simp only [twoCharOps, List.mem_cons, Prod.mk.injEq, List.cons.injEq, and_true,
    List.mem_singleton, List.not_mem_nil, or_false] at h
  rcases h with h | h | h | h | h | h | h | h | h | h | h <;>
    obtain ⟨rfl, rfl, rfl⟩ := h <;>
    (rw [next_of_symbol (by decide) (by decide)]
     simp [nextSymbol, symbols, Symbol.text, List.find?_cons, List.isPrefixOf])

theorem selects_mem {lex : Lexer} {p : regexPattern} (h : Selects lex p) : p ∈ patterns := by
  obtain ⟨before, after, h1, -, -⟩ := h
  rw [h1]
  simp

theorem selects_of_firstMatch {lex : Lexer} {x : Except (List Char) Lexer}
    (h : firstMatch patterns lex = some x) :
    ∃ p, Selects lex p ∧ p.handler lex p.Regex = x := by
  obtain ⟨before, p, after, h1, h2, h3, h4⟩ := split_of_firstMatch _ _ _ h
  exact ⟨p, ⟨before, after, h1, h2, h3⟩, h4.symm⟩

theorem selects_symbol {lex : Lexer} {p : regexPattern} {k : TokenKind} {m rest : List Char}
    (hs : Selects lex p) (hn : next lex.remainder = some (some k, m, rest))
    (hk : k ≠ .NUMBER) :
    ∃ e ∈ symbols, p = e.rule ∧ e.kind = k ∧ e.text = m := by
  have hf := firstMatch_of_selects hs
  rw [firstMatch_patterns, hn] at hf
  simp only [Option.map_some', Option.some.injEq, emitted, NewToken] at hf
  have hmatch : (matchLen p.Regex lex.remainder).isSome = true := by
    rw [← matchesAtCursor_eq]
    exact hs.choose_spec.choose_spec.2.2
  obtain ⟨j, hj⟩ := Option.isSome_iff_exists.mp hmatch
  rcases pattern_cases (selects_mem hs) hj with ⟨rfl, _⟩ | ⟨rfl, _, _⟩ | ⟨e, he, rfl, _, _, _, _⟩
  · simp only [spaceRule, skipHandler] at hf
    split at hf
    · simp only [Lexer.advanceN, Except.ok.injEq, Lexer.mk.injEq, List.self_eq_append_right] at hf
      exact absurd hf.1 (by simp)
    · cases hf
  · simp only [numberRule, numberTokenHandler, Lexer.advanceN, Lexer.push, NewToken,
      Except.ok.injEq, Lexer.mk.injEq, List.append_cancel_left_eq, List.cons.injEq,
      Token.mk.injEq] at hf
    exact absurd hf.1.1.1 hk
  · simp only [Symbol.rule, defaultHandler, Lexer.advanceN, Lexer.push, NewToken,
      Except.ok.injEq, Lexer.mk.injEq, List.append_cancel_left_eq, List.cons.injEq,
      Token.mk.injEq] at hf
    exact ⟨e, he, rfl, hf.1.1.1.symm, hf.1.1.2.symm⟩

theorem patterns_duplicates :
    patterns = patterns.take 33 ++ List.replicate 4 duplicateRule := rfl

theorem duplicateRule_earlier :
    patterns.take 33 = patterns.take 25 ++ duplicateRule :: (patterns.take 33).drop 26 := rfl

theorem firstMatch_append (l1 l2 : List regexPattern) (lex : Lexer) :
    firstMatch (l1 ++ l2) lex =
      match firstMatch l1 lex with
      | some x => some x
      | none => firstMatch l2 lex := by
  induction l1 with
  | nil => simp [firstMatch]
  | cons p l1 ih =>
    rw [List.cons_append, firstMatch_cons, firstMatch_cons]
    by_cases hp : matchesAtCursor p.Regex lex = true
    · simp [hp]
    · simp [hp, ih]

theorem selectedIndex_append (l1 l2 : List regexPattern) (lex : Lexer) :
    selectedIndex (l1 ++ l2) lex =
      match selectedIndex l1 lex with
      | some i => some i
      | none => (selectedIndex l2 lex).map (· + l1.length) := by
  induction l1 with
  | nil => simp [selectedIndex]
  | cons p l1 ih =>
    rw [List.cons_append]
    by_cases hp : matchesAtCursor p.Regex lex = true
    · simp [selectedIndex, hp]
    · have e1 : selectedIndex (p :: (l1 ++ l2)) lex =
          (selectedIndex (l1 ++ l2) lex).map (· + 1) := by simp [selectedIndex, hp]
      have e2 : selectedIndex (p :: l1) lex = (selectedIndex l1 lex).map (· + 1) := by
        simp [selectedIndex, hp]
      rw [e1, e2, ih]
      cases selectedIndex l1 lex with
      | some i => rfl
      | none =>
        cases selectedIndex l2 lex with
        | none => rfl
        | some j => simp [Nat.add_assoc]

theorem selectedIndex_lt (l : List regexPattern) (lex : Lexer) (i : Nat)
    (h : selectedIndex l lex = some i) : i < l.length := by
  induction l generalizing i with
  | nil => simp [selectedIndex] at h
  | cons p l ih =>
    simp only [selectedIndex] at h
    split at h
    · simp only [Option.some.injEq] at h
      simp [← h]
    · cases hs : selectedIndex l lex with
      | none => simp [hs] at h
      | some j =>
        simp only [hs, Option.map_some', Option.some.injEq] at h
        have := ih j hs
        simp only [List.length_cons]
        omega

theorem selectedIndex_none_iff (l : List regexPattern) (lex : Lexer) :
    selectedIndex l lex = none ↔ ∀ p ∈ l, matchesAtCursor p.Regex lex = false := by
  induction l with
  | nil => simp [selectedIndex]
  | cons p l ih =>
    simp only [selectedIndex]
    by_cases hp : matchesAtCursor p.Regex lex = true
    · simp [hp]
    · simp [hp, ih]

theorem duplicates_unmatched (lex : Lexer)
    (h : ∀ p ∈ patterns.take 33, matchesAtCursor p.Regex lex = false) :
    ∀ p ∈ List.replicate 4 duplicateRule, matchesAtCursor p.Regex lex = false := by
  intro p hp
  rw [List.mem_replicate] at hp
  rw [hp.2]
  apply h
  rw [duplicateRule_earlier]
  simp

theorem firstMatch_without_duplicates (lex : Lexer) :
    firstMatch (patterns.take 33) lex = firstMatch patterns lex := by
  conv => rhs; rw [patterns_duplicates, firstMatch_append]
  cases h : firstMatch (patterns.take 33) lex with
  | some x => rfl
  | none =>
    have := duplicates_unmatched lex ((firstMatch_eq_none_iff _ lex).mp h)
    exact ((firstMatch_eq_none_iff _ lex).mpr this).symm

theorem scanWith_without_duplicates (fuel : Nat) (lex : Lexer) :
    scanWith (patterns.take 33) fuel lex = scan fuel lex := by
  induction fuel generalizing lex with
  | zero => rfl
  | succ fuel ih =>
    simp only [scanWith, scan, firstMatch_without_duplicates]
    split
    · rfl
    · cases firstMatch patterns lex with
      | none => rfl
      | some x =>
        cases x with
        | error msg => rfl
        | ok nxt => exact ih nxt

theorem firstMatch_ok_facts {lex nxt : Lexer} (hpos : lex.pos ≤ lex.source.length)
    (h : firstMatch patterns lex = some (.ok nxt)) :
    ∃ k m rest, next lex.remainder = some (k, m, rest) ∧
      nxt = ⟨lex.Tokens ++ emitted k m, lex.source, lex.pos + m.length⟩ ∧
      m ≠ [] ∧ nxt.pos ≤ nxt.source.length ∧ nxt.remainder = rest ∧ consumed lex nxt = m := by
  have h0 := h
  rw [firstMatch_patterns] at h
  cases hn : next lex.remainder with
  | none => simp [hn] at h
  | some x =>
    obtain ⟨k, m, rest⟩ := x
    simp only [hn, Option.map_some', Option.some.injEq, Except.ok.injEq] at h
    obtain ⟨-, h2, h3, h4⟩ := step_facts lex hpos hn
    subst h
    exact ⟨k, m, rest, rfl, rfl, (next_split hn).2, h3, h2, h4⟩

theorem trace_cons (fuel : Nat) (lex : Lexer) : ∃ tl, trace fuel lex = lex :: tl := by
  cases fuel with
  | zero => exact ⟨[], rfl⟩
  | succ fuel =>
    simp only [trace]
    split
    · exact ⟨[], rfl⟩
    · split
      · exact ⟨_, rfl⟩
      · exact ⟨[], rfl⟩

theorem trace_succ_of_ok {fuel : Nat} {lex nxt : Lexer} (he : lex.atEOF = false)
    (h : firstMatch patterns lex = some (.ok nxt)) :
    trace (fuel + 1) lex = lex :: trace fuel nxt := by
  simp [trace, he, h]

theorem trace_succ_cases (fuel : Nat) (lex : Lexer) :
    trace (fuel + 1) lex = [lex] ∨
      ∃ nxt, lex.atEOF = false ∧ firstMatch patterns lex = some (.ok nxt) ∧
        trace (fuel + 1) lex = lex :: trace fuel nxt := by
  by_cases he : lex.atEOF = true
  · left
    simp [trace, he]
  · have he' : lex.atEOF = false := by simpa using he
    cases hf : firstMatch patterns lex with
    | none => left; simp [trace, he', hf]
    | some x =>
      cases x with
      | error msg => left; simp [trace, he', hf]
      | ok nxt => exact Or.inr ⟨nxt, he', rfl, trace_succ_of_ok he' hf⟩

theorem trace_pos_le (fuel : Nat) (lex : Lexer) (hpos : lex.pos ≤ lex.source.length) :
    ∀ lex' ∈ trace fuel lex, lex'.pos ≤ lex'.source.length := by
  induction fuel generalizing lex with
  | zero =>
    intro lex' h
    simp only [trace, List.mem_singleton] at h
    rw [h]
    exact hpos
  | succ fuel ih =>
    intro lex' h
    rcases trace_succ_cases fuel lex with h1 | ⟨nxt, -, hf, h1⟩
    · rw [h1, List.mem_singleton] at h
      rw [h]
      exact hpos
    · rw [h1, List.mem_cons] at h
      rcases h with h | h
      · rw [h]
        exact hpos
      · obtain ⟨k, m, rest, -, -, -, h4, -, -⟩ := firstMatch_ok_facts hpos hf
        exact ih nxt h4 lex' h

theorem trace_pos_chain (fuel : Nat) (lex : Lexer) (hpos : lex.pos ≤ lex.source.length) :
    List.Chain' (fun a b : Lexer => a.pos < b.pos) (trace fuel lex) := by
  induction fuel generalizing lex with
  | zero => simp [trace]
  | succ fuel ih =>
    rcases trace_succ_cases fuel lex with h1 | ⟨nxt, -, hf, h1⟩
    · rw [h1]
      simp
    · obtain ⟨k, m, rest, -, h2, h3, h4, -, -⟩ := firstMatch_ok_facts hpos hf
      rw [h1, List.chain'_cons']
      refine ⟨?_, ih nxt h4⟩
      intro b hb
      obtain ⟨tl, htl⟩ := trace_cons fuel nxt
      rw [htl] at hb
      simp only [List.head?_cons, Option.mem_def, Option.some.injEq] at hb
      subst hb
      have : 0 < m.length := List.length_pos.mpr h3
      rw [h2]
      simp only
      omega

theorem handler_pos_le {p : regexPattern} (hp : p ∈ patterns) {lex nxt : Lexer}
    (h : p.handler lex p.Regex = .ok nxt) : lex.pos ≤ nxt.pos := by
  rw [patterns_split] at hp
  simp only [List.mem_cons, List.mem_map] at hp
  rcases hp with rfl | rfl | ⟨e, -, rfl⟩
  · simp only [spaceRule, skipHandler] at h
    split at h
    · simp only [Lexer.advanceN, Except.ok.injEq] at h
      rw [← h]
      simp
    · cases h
  · simp only [numberRule, numberTokenHandler, Lexer.advanceN, Lexer.push,
      Except.ok.injEq] at h
    rw [← h]
    simp
  · simp only [Symbol.rule, defaultHandler, Lexer.advanceN, Lexer.push, Except.ok.injEq] at h
    rw [← h]
    simp

theorem matchLen_le {re : Regexp} {s : List Char} {n : Nat} (h : matchLen re s = some n) :
    n ≤ s.length := by
  unfold matchLen at h
  cases hr : (re.run s).head? with
  | none => simp [hr] at h
  | some r =>
    simp only [hr, Option.map_some', Option.some.injEq] at h
    omega

theorem numberText_ne_nil {s : List Char} (h : s.head?.any digit = true) :
    numberText s ≠ [] := by
  cases s with
  | nil => simp at h
  | cons c t =>
    have hc : digit c = true := by simpa using h
    simp [numberText, List.takeWhile_cons, hc]

theorem scan_of_le (fuel : Nat) (source : List Char) (h : source.length ≤ fuel) :
    scan fuel (createLexer source) = scan source.length (createLexer source) := by
  rw [scan_eq _ _ (Nat.zero_le _), scan_eq _ _ (Nat.zero_le _)]
  have hr : (createLexer source).remainder = source := by simp [createLexer, Lexer.remainder]
  rw [hr, lexRun_of_le fuel source h]

theorem selects_pos_lt {lex nxt : Lexer} {p : regexPattern} (hs : Selects lex p)
    (h : p.handler lex p.Regex = .ok nxt) : lex.pos < nxt.pos := by
  have hf := firstMatch_of_selects hs
  rw [h, firstMatch_patterns] at hf
  cases hn : next lex.remainder with
  | none => simp [hn] at hf
  | some x =>
    obtain ⟨k, m, rest⟩ := x
    simp only [hn, Option.map_some', Option.some.injEq, Except.ok.injEq] at hf
    have : 0 < m.length := List.length_pos.mpr (next_split hn).2
    rw [← hf]
    simp only
    omega

theorem trace_length_le (fuel : Nat) (lex : Lexer) (hpos : lex.pos ≤ lex.source.length) :
    (trace fuel lex).length + lex.pos ≤ lex.source.length + 1 := by
  induction fuel generalizing lex with
  | zero =>
    simp only [trace, List.length_singleton]
    omega
  | succ fuel ih =>
    rcases trace_succ_cases fuel lex with h1 | ⟨nxt, -, hf, h1⟩
    · rw [h1, List.length_singleton]
      omega
    · obtain ⟨k, m, rest, -, h2, h3, h4, -, -⟩ := firstMatch_ok_facts hpos hf
      subst h2
      have := ih _ h4
      have hm : 0 < m.length := List.length_pos.mpr h3
      rw [h1, List.length_cons]
      simp only at this
      omega

theorem lexAll_length (s : List Char) (ts : List Token) (h : lexAll s = .returned ts) :
    ts.length ≤ s.length := by
  refine lexAll_induction (P := fun s ts => ts.length ≤ s.length) (by simp) ?_ s ts h
  intro s k m rest ts hn _ ih
  obtain ⟨hsplit, hm⟩ := next_split hn
  have h1 : 0 < m.length := List.length_pos.mpr hm
  have h2 : (emitted k m).length ≤ 1 := by cases k <;> simp [emitted]
  rw [hsplit, List.length_append, List.length_append]
  omega

theorem firingPositions_props (fuel : Nat) (lex : Lexer) (hpos : lex.pos ≤ lex.source.length)
    (ts : List Token) (h : lexRun fuel lex.remainder = .returned ts) :
    List.Forall₂ (fun p t => t.Value ≠ [] ∧ t.Value = (lex.source.drop p).take t.Value.length)
      (firingPositions (trace fuel lex)) ts ∧
    (∀ p ∈ firingPositions (trace fuel lex), lex.pos ≤ p) ∧
    List.Pairwise (fun x y : Nat × Token => x.1 + x.2.Value.length ≤ y.1)
      ((firingPositions (trace fuel lex)).zip ts) := by
  induction fuel generalizing lex ts with
  | zero =>
    cases hrem : lex.remainder with
    | nil =>
      rw [hrem] at h
      simp only [lexRun, Outcome.returned.injEq] at h
      subst h
      simp [trace, firingPositions]
    | cons c t =>
      rw [hrem] at h
      simp [lexRun] at h
  | succ fuel ih =>
    cases hrem : lex.remainder with
    | nil =>
      rw [hrem] at h
      simp only [lexRun, Outcome.returned.injEq] at h
      subst h
      simp [trace, (atEOF_iff lex).mpr hrem, firingPositions]
    | cons c t =>
      have heof : lex.atEOF = false := by
        cases he : lex.atEOF with
        | false => rfl
        | true => rw [(atEOF_iff lex).mp he] at hrem; cases hrem
      rw [hrem] at h
      obtain ⟨k, m, rest, ts', hn, hr, rfl⟩ := lexRun_returned_cons h
      rw [← hrem] at hn
      obtain ⟨hf, hrem2, hpos2, hcons⟩ := step_facts lex hpos hn
      rw [← hrem2] at hr
      obtain ⟨h1, h2, h3⟩ := ih _ hpos2 ts' hr
      simp only at h1 h2
      rw [trace_succ_of_ok heof hf]
      obtain ⟨tl, htl⟩ := trace_cons fuel
        ⟨lex.Tokens ++ emitted k m, lex.source, lex.pos + m.length⟩
      have hm : 0 < m.length := List.length_pos.mpr (next_split hn).2
      cases k with
      | none =>
        have hfp : firingPositions (lex :: trace fuel
            ⟨lex.Tokens ++ emitted none m, lex.source, lex.pos + m.length⟩) =
            firingPositions (trace fuel
              ⟨lex.Tokens ++ emitted none m, lex.source, lex.pos + m.length⟩) := by
          rw [htl]
          simp [firingPositions, emitted]
        rw [hfp]
        refine ⟨by simpa [emitted] using h1, ?_, by simpa [emitted] using h3⟩
        intro p hp
        have := h2 p hp
        omega
      | some kd =>
        have hfp : firingPositions (lex :: trace fuel
            ⟨lex.Tokens ++ emitted (some kd) m, lex.source, lex.pos + m.length⟩) =
            lex.pos :: firingPositions (trace fuel
              ⟨lex.Tokens ++ emitted (some kd) m, lex.source, lex.pos + m.length⟩) := by
          rw [htl]
          simp [firingPositions, emitted]
        rw [hfp]
        have hval : m = (lex.source.drop lex.pos).take m.length := by
          have := hcons
          simp only [consumed, Nat.add_sub_cancel_left] at this
          exact this.symm
        refine ⟨?_, ?_, ?_⟩
        · simp only [emitted, NewToken, List.singleton_append]
          exact List.Forall₂.cons ⟨(next_split hn).2, hval⟩ h1
        · intro p hp
          rcases List.mem_cons.mp hp with rfl | hp
          · exact Nat.le_refl _
          · have := h2 p hp
            omega
        · simp only [emitted, NewToken, List.singleton_append, List.zip_cons_cons,
            List.pairwise_cons]
          refine ⟨?_, h3⟩
          intro y hy
          have := h2 y.1 (List.of_mem_zip hy).1
          simpa using this

theorem supported_of_allowed_symbol :
    ∀ c ∈ "[]\x7b\x7d()=!<>.;:?,+-/*%&|".toList, supportedChar c = true := by
  decide

theorem supported_of_allowed {c : Char} (h : allowedChar c = true) : supportedChar c = true := by
  simp only [allowedChar, Bool.or_eq_true, decide_eq_true_eq] at h
  rcases h with (((h | h) | h) | h) | h
  · simp [supportedChar, h]
  · simp [supportedChar, h]
  · apply supported_of_allowed_symbol
    have : c ∈ "[]\x7b\x7d()=!<>.;:?,+-/*%".toList := by simpa using h
    have hsub : ∀ x ∈ "[]\x7b\x7d()=!<>.;:?,+-/*%".toList,
        x ∈ "[]\x7b\x7d()=!<>.;:?,+-/*%&|".toList := by decide
    exact hsub c this
  · subst h
    decide
  · subst h
    decide

theorem next_some_cases {s m rest : List Char} {k : TokenKind}
    (h : next s = some (some k, m, rest)) :
    (k = .NUMBER ∧ m = numberText s ∧ s.head?.any digit = true) ∨
    (∃ e ∈ symbols, k = e.kind ∧ m = e.text) := by
  cases s with
  | nil => simp [next] at h
  | cons c t =>
    simp only [next] at h
    split at h
    · simp at h
    · split at h
      · rename_i hd
        simp only [Option.some.injEq, Prod.mk.injEq] at h
        exact Or.inl ⟨h.1.symm, h.2.1.symm, by simpa using hd⟩
      · cases hs : nextSymbol (c :: t) with
        | none => simp [hs] at h
        | some e =>
          simp only [hs, Option.map_some', Option.some.injEq, Prod.mk.injEq] at h
          exact Or.inr ⟨e, (nextSymbol_some hs).1, h.1.symm, h.2.1.symm⟩

theorem symbols_allowed : ∀ e ∈ symbols, ∀ c ∈ e.text, allowedChar c = true := by decide

theorem symbols_runs :
    ∀ e ∈ symbols,
      ((∀ x ∈ e.text, x ≠ '&') ∨ e.text = ['&', '&']) ∧
      ((∀ x ∈ e.text, x ≠ '|') ∨ e.text = ['|', '|']) := by
  decide

theorem next_chars_allowed {s m rest : List Char} {k : Option TokenKind}
    (h : next s = some (k, m, rest)) : ∀ c ∈ m, allowedChar c = true := by
  intro c hc
  cases k with
  | none =>
    have := next_none_chars h c hc
    simp [allowedChar, this]
  | some kd =>
    rcases next_some_cases h with ⟨-, rfl, -⟩ | ⟨e, he, -, rfl⟩
    · rcases numberText_chars _ c hc with hd | rfl
      · rw [digit_eq_isDigit] at hd
        simp [allowedChar, hd]
      · decide
    · exact symbols_allowed e he c hc

theorem next_runs {s m rest : List Char} {k : Option TokenKind}
    (h : next s = some (k, m, rest)) :
    ((∀ x ∈ m, x ≠ '&') ∨ m = ['&', '&']) ∧ ((∀ x ∈ m, x ≠ '|') ∨ m = ['|', '|']) := by
  cases k with
  | none =>
    have hw := next_none_chars h
    constructor <;> left <;> intro x hx hxa <;> have := hw x hx <;> rw [hxa] at this <;>
      revert this <;> decide
  | some kd =>
    rcases next_some_cases h with ⟨-, rfl, -⟩ | ⟨e, he, -, rfl⟩
    · constructor <;> left <;> intro x hx hxa <;>
        rcases numberText_chars _ x hx with hd | hd <;> rw [hxa] at hd <;> revert hd <;> decide
    · exact symbols_runs e he

theorem evenRuns_append {a : Char} (m rest : List Char) (hm : ∀ x ∈ m, x ≠ a)
    (h : EvenRuns a rest) : EvenRuns a (m ++ rest) := by
  induction m with
  | nil => simpa using h
  | cons x m ih =>
    rw [List.cons_append, evenRuns_cons_ne (hm x (by simp))]
    exact ih (fun y hy => hm y (by simp [hy]))

theorem evenRuns_step {a : Char} (m rest : List Char)
    (hm : (∀ x ∈ m, x ≠ a) ∨ m = [a, a]) (h : EvenRuns a rest) : EvenRuns a (m ++ rest) := by
  rcases hm with hm | rfl
  · exact evenRuns_append m rest hm h
  · exact (evenRuns_cons_self a _).mpr ⟨rest, rfl, h⟩

theorem good_of_lexAll (s : List Char) (ts : List Token) (h : lexAll s = .returned ts) :
    (∀ c ∈ s, allowedChar c = true) ∧ EvenRuns '&' s ∧ EvenRuns '|' s := by
  refine lexAll_induction
    (P := fun s _ => (∀ c ∈ s, allowedChar c = true) ∧ EvenRuns '&' s ∧ EvenRuns '|' s)
    ⟨by simp, evenRuns_nil _, evenRuns_nil _⟩ ?_ s ts h
  intro s k m rest ts hn _ ih
  obtain ⟨h1, h2, h3⟩ := ih
  have hr := next_runs hn
  rw [(next_split hn).1]
  refine ⟨?_, evenRuns_step m rest hr.1 h2, evenRuns_step m rest hr.2 h3⟩
  intro c hc
  rcases List.mem_append.mp hc with hc | hc
  · exact next_chars_allowed hn c hc
  · exact h1 c hc

theorem fraction_cases (r : List Char) :
    fraction r = [] ∨
      ∃ d2 : List Char, d2 ≠ [] ∧ (∀ c ∈ d2, digit c = true) ∧ fraction r = '.' :: d2 := by
  match r with
  | [] => left; rfl
  | [c] => left; rfl
  | c :: d :: t =>
    simp only [fraction]
    split
    · rename_i hc
      right
      refine ⟨(d :: t).takeWhile digit, ?_, fun x hx => List.mem_takeWhile_imp hx, ?_⟩
      · simp [List.takeWhile_cons, hc.2]
      · rw [hc.1]
    · left; rfl

theorem numberShape_numberText {s : List Char} (h : s.head?.any digit = true) :
    NumberShape (numberText s) := by
  have hd1 : s.takeWhile digit ≠ [] := by
    cases s with
    | nil => simp at h
    | cons c t =>
      have hc : digit c = true := by simpa using h
      simp [List.takeWhile_cons, hc]
  have hall : ∀ c ∈ s.takeWhile digit, c.isDigit = true := by
    intro c hc
    rw [← digit_eq_isDigit]
    exact List.mem_takeWhile_imp hc
  refine ⟨s.takeWhile digit, hd1, hall, ?_⟩
  rcases fraction_cases (s.dropWhile digit) with h0 | ⟨d2, h1, h2, h3⟩
  · left
    simp [numberText, h0]
  · right
    refine ⟨d2, h1, fun c hc => by rw [← digit_eq_isDigit]; exact h2 c hc, ?_⟩
    simp [numberText, h3]

theorem symbols_in_kindTable :
    ∀ e ∈ symbols, e.kind ≠ .NUMBER ∧ (e.kind, e.text) ∈ kindTable ∧
      ∀ p ∈ kindTable, p.1 = e.kind → p.2 = e.text := by
  decide

theorem lexAll_tokens (s : List Char) (ts : List Token) (h : lexAll s = .returned ts) :
    ∀ t ∈ ts, ((t.Kind = .NUMBER ∧ NumberShape t.Value) ∨
      ∃ e ∈ symbols, t.Kind = e.kind ∧ t.Value = e.text) ∧
      ∀ c ∈ t.Value, perlSpace c = false := by
  refine lexAll_induction
    (P := fun _ ts => ∀ t ∈ ts, ((t.Kind = .NUMBER ∧ NumberShape t.Value) ∨
      ∃ e ∈ symbols, t.Kind = e.kind ∧ t.Value = e.text) ∧
      ∀ c ∈ t.Value, perlSpace c = false)
    (by simp) ?_ s ts h
  intro s k m rest ts hn _ ih t ht
  rcases List.mem_append.mp ht with ht | ht
  · cases k with
    | none => simp [emitted] at ht
    | some kd =>
      simp only [emitted, NewToken, List.mem_singleton] at ht
      subst ht
      refine ⟨?_, next_some_chars hn⟩
      rcases next_some_cases hn with ⟨rfl, rfl, hd⟩ | ⟨e, he, rfl, rfl⟩
      · exact Or.inl ⟨rfl, numberShape_numberText hd⟩
      · exact Or.inr ⟨e, he, rfl, rfl⟩
  · exact ih t ht

/-! ## The properties -/

/-- C1: whenever `Tokenize` returns, the returned sequence is non-empty, its last token
is `EOF` with the value `"EOF"`, no earlier token has kind `EOF`, and that token was
appended to the tokens of a scan loop that had ended with the cursor at the source
length. -/
theorem tokenize_terminal_eof (source : List Char) (tokens : List Token)
    (h : Tokenize source = .returned tokens) :
    tokens ≠ [] ∧
    tokens.getLast? = some ⟨.EOF, "EOF".toList⟩ ∧
    (∀ t ∈ tokens.dropLast, t.Kind ≠ .EOF) ∧
    ∃ lex, scan source.length (createLexer source) = .returned lex ∧
      lex.pos = source.length ∧ tokens = lex.Tokens ++ [⟨.EOF, "EOF".toList⟩] := by
  obtain ⟨ts, hts, rfl⟩ := (Tokenize_returned_iff source tokens).mp h
  refine ⟨by simp, by simp [eofToken, NewToken], ?_, ?_⟩
  · simpa using lexAll_kind_ne_eof source ts hts
  · have hs := scan_eq source.length (createLexer source) (Nat.zero_le _)
    have hr : (createLexer source).remainder = source := by simp [createLexer, Lexer.remainder]
    rw [hr] at hs
    change lexAll source = _ at hts
    unfold lexAll at hts
    rw [hts] at hs
    exact ⟨_, hs, rfl, by simp [createLexer, eofToken, NewToken]⟩

theorem tokenize_terminal_eof_witness :
    Tokenize "1 2".toList =
        .returned [⟨.NUMBER, "1".toList⟩, ⟨.NUMBER, "2".toList⟩, ⟨.EOF, "EOF".toList⟩] ∧
      ([⟨.NUMBER, "1".toList⟩, ⟨.NUMBER, "2".toList⟩, ⟨.EOF, "EOF".toList⟩] : List Token).getLast? =
        some ⟨.EOF, "EOF".toList⟩ :=
  ⟨by decide, (tokenize_terminal_eof "1 2".toList _ (by decide)).2.1⟩

/-- C2: for every symbolic kind and its lexeme in the kind-to-lexeme table,
tokenizing the lexeme alone gives exactly one token of that kind with that value,
followed by the terminal token. -/
theorem tokenize_symbol (kind : TokenKind) (lexeme : List Char)
    (h : (kind, lexeme) ∈ kindTable) :
    Tokenize lexeme = .returned [⟨kind, lexeme⟩, ⟨.EOF, "EOF".toList⟩] := by
  have key : ∀ p ∈ kindTable, Tokenize p.2 = .returned [⟨p.1, p.2⟩, ⟨.EOF, "EOF".toList⟩] := by
    decide
  exact key (kind, lexeme) h

theorem tokenize_symbol_witness :
    Tokenize "==".toList = .returned [⟨.EQUALS, "==".toList⟩, ⟨.EOF, "EOF".toList⟩] ∧
    Tokenize "==".toList ≠
      .returned [⟨.ASSIGNMENT, "=".toList⟩, ⟨.ASSIGNMENT, "=".toList⟩, ⟨.EOF, "EOF".toList⟩] ∧
    Tokenize "!=".toList = .returned [⟨.NOT_EQUALS, "!=".toList⟩, ⟨.EOF, "EOF".toList⟩] ∧
    Tokenize "!".toList = .returned [⟨.NOT, "!".toList⟩, ⟨.EOF, "EOF".toList⟩] :=
  ⟨tokenize_symbol .EQUALS "==".toList (by decide),
    by rw [tokenize_symbol .EQUALS "==".toList (by decide)]; decide,
    tokenize_symbol .NOT_EQUALS "!=".toList (by decide),
    tokenize_symbol .NOT "!".toList (by decide)⟩

/-- C3: a non-empty string of decimal digits is tokenized as one `NUMBER` token whose
value is the whole string, and so is such a string followed by `.` and a second
non-empty string of decimal digits; the terminal token follows. -/
theorem tokenize_number (d1 d2 : List Char) (h1 : d1 ≠ []) (h1d : ∀ c ∈ d1, c.isDigit = true)
    (h2 : d2 ≠ []) (h2d : ∀ c ∈ d2, c.isDigit = true) :
    Tokenize d1 = .returned [⟨.NUMBER, d1⟩, ⟨.EOF, "EOF".toList⟩] ∧
    Tokenize (d1 ++ '.' :: d2) =
      .returned [⟨.NUMBER, d1 ++ '.' :: d2⟩, ⟨.EOF, "EOF".toList⟩] := by
  have g1 : ∀ c ∈ d1, digit c = true := fun c hc => by rw [digit_eq_isDigit]; exact h1d c hc
  have g2 : ∀ c ∈ d2, digit c = true := fun c hc => by rw [digit_eq_isDigit]; exact h2d c hc
  constructor
  · have hn := next_number d1 [] h1 (numberText_int d1 [] g1 rfl rfl) g1
    rw [List.append_nil] at hn
    exact Tokenize_of_lexAll (lexAll_step hn lexAll_nil)
  · have hall : ∀ c ∈ d1 ++ '.' :: d2, digit c = true ∨ c = '.' := by
      intro c hc
      simp only [List.mem_append, List.mem_cons] at hc
      rcases hc with hc | rfl | hc
      · exact Or.inl (g1 c hc)
      · exact Or.inr rfl
      · exact Or.inl (g2 c hc)
    have ht := numberText_frac d1 d2 [] g1 g2 h2 rfl
    rw [List.append_nil] at ht
    cases d1 with
    | nil => exact absurd rfl h1
    | cons c t =>
      have hc : digit c = true := g1 c (by simp)
      have hn := next_of_digit c (t ++ '.' :: d2) hc
      rw [← List.cons_append, ht, List.drop_length] at hn
      exact Tokenize_of_lexAll (lexAll_step hn lexAll_nil)

theorem tokenize_number_witness :
    Tokenize "42".toList = .returned [⟨.NUMBER, "42".toList⟩, ⟨.EOF, "EOF".toList⟩] ∧
    Tokenize "3.14".toList = .returned [⟨.NUMBER, "3.14".toList⟩, ⟨.EOF, "EOF".toList⟩] :=
  ⟨(tokenize_number "42".toList "0".toList (by decide) (by decide) (by decide) (by decide)).1,
    (tokenize_number "3".toList "14".toList (by decide) (by decide) (by decide) (by decide)).2⟩

/-- C4: if the scan of an input reaches a state whose cursor is below the source
length and at which no rule of the table matches at the cursor, then `Tokenize` panics
and the message of the panic is the text `Lexer::Error -> unrecognized token near `,
then exactly the remaining text `source[pos:]`, then a line feed; and whenever
`Tokenize` panics, such a state was reached and the message is that text for its
remaining text. -/
theorem tokenize_abort (source : List Char) :
    (∀ lex ∈ trace source.length (createLexer source),
      lex.pos < source.length →
      (∀ p ∈ patterns, matchesAtCursor p.Regex lex = false) →
      Tokenize source =
        .panicked ("Lexer::Error -> unrecognized token near ".toList ++ source.drop lex.pos ++
          "\n".toList)) ∧
    (∀ msg, Tokenize source = .panicked msg →
      ∃ lex ∈ trace source.length (createLexer source),
        lex.pos < source.length ∧
        (∀ p ∈ patterns, matchesAtCursor p.Regex lex = false) ∧
        msg = "Lexer::Error -> unrecognized token near ".toList ++ source.drop lex.pos ++
          "\n".toList) := by
  have hsrc : ∀ lex ∈ trace source.length (createLexer source), lex.source = source :=
    fun lex h => trace_source _ _ _ h
  constructor
  · intro lex hmem hpos hno
    have heof : lex.atEOF = false := by
      simp only [Lexer.atEOF, hsrc lex hmem, decide_eq_false_iff_not]
      omega
    have hnone := (firstMatch_eq_none_iff patterns lex).mpr hno
    have hu := Tokenize_ne_unfinished source
    have hs := scan_of_mem_trace _ _ _ hmem heof hnone
    simp only [Lexer.remainder, hsrc lex hmem] at hs
    unfold Tokenize at hu ⊢
    rcases hs with hs | hs
    · rw [hs]
      rfl
    · rw [hs] at hu
      exact absurd rfl hu
  · intro msg h
    have hscan : scan source.length (createLexer source) = .panicked msg := by
      unfold Tokenize at h
      cases hs : scan source.length (createLexer source) with
      | returned lex => rw [hs] at h; cases h
      | panicked m => rw [hs] at h; simpa using h
      | unfinished => rw [hs] at h; cases h
    obtain ⟨lex, hmem, heof, hnone, hmsg⟩ := mem_trace_of_scan_panicked _ _ _ hscan
    refine ⟨lex, hmem, ?_, (firstMatch_eq_none_iff patterns lex).mp hnone, ?_⟩
    · simpa [Lexer.atEOF, hsrc lex hmem] using heof
    · simpa [Lexer.remainder, hsrc lex hmem, unrecognized] using hmsg

theorem tokenize_abort_witness :
    Tokenize "@".toList = .panicked "Lexer::Error -> unrecognized token near @\n".toList :=
  (tokenize_abort "@".toList).1 (createLexer "@".toList) (by decide) (by decide) (by decide)

/-- C5 (as stated, refuted): the input `&` consists of a supported character, since `&`
occurs in the lexeme `&&`, and `Tokenize` panics on it. -/
theorem tokenize_supported_counterexample :
    (∀ c ∈ "&".toList, supportedChar c = true) ∧
    Tokenize "&".toList = .panicked (unrecognized "&".toList) := by
  decide

/-- C5 (amended): on every input that consists of supported characters and in which
every maximal run of `&` and every maximal run of the vertical bar has even length,
`Tokenize` returns, and the last token of its result is `EOF` with the value `"EOF"`. -/
theorem tokenize_supported (source : List Char)
    (hsup : ∀ c ∈ source, supportedChar c = true)
    (hand : EvenRuns '&' source) (hor : EvenRuns '|' source) :
    ∃ tokens, Tokenize source = .returned tokens ∧
      tokens.getLast? = some ⟨.EOF, "EOF".toList⟩ := by
  obtain ⟨ts, hts⟩ := lexAll_of_good source hsup hand hor
  exact ⟨ts ++ [eofToken], Tokenize_of_lexAll hts, by simp [eofToken, NewToken]⟩

theorem tokenize_supported_witness :
    ∃ tokens, Tokenize "1 && (2 || 3.5)".toList = .returned tokens ∧
      tokens.getLast? = some ⟨.EOF, "EOF".toList⟩ :=
  tokenize_supported "1 && (2 || 3.5)".toList (by decide)
    ((evenRuns_iff_check _ _).mpr (by decide)) ((evenRuns_iff_check _ _).mpr (by decide))

/-- C6: when `Tokenize` returns, the texts consumed by the successive rule firings
concatenate to the source; each firing either appends one token whose value is the text
it consumed or appends nothing and consumed a non-empty run of whitespace; the tokens so
accumulated are the returned ones before the terminal token; and the values of those
tokens concatenate to the source with every whitespace character removed. -/
theorem tokenize_reconstruction (source : List Char) (tokens : List Token)
    (h : Tokenize source = .returned tokens) :
    (chunks (trace source.length (createLexer source))).flatten = source ∧
    List.Chain' Firing (trace source.length (createLexer source)) ∧
    (trace source.length (createLexer source)).head? = some (createLexer source) ∧
    (∃ final, (trace source.length (createLexer source)).getLast? = some final ∧
      tokens = final.Tokens ++ [⟨.EOF, "EOF".toList⟩]) ∧
    (tokens.dropLast.map Token.Value).flatten = source.filter fun c => !perlSpace c := by
  obtain ⟨ts, hts, rfl⟩ := (Tokenize_returned_iff source tokens).mp h
  have hr : (createLexer source).remainder = source := by simp [createLexer, Lexer.remainder]
  have hts2 : lexRun source.length (createLexer source).remainder = .returned ts := by
    rw [hr]; exact hts
  obtain ⟨h1, h2, h3, final, h4, h5⟩ :=
    trace_props source.length (createLexer source) (Nat.zero_le _) ts hts2
  refine ⟨by rw [h2, hr], h3, h1, ⟨final, h4, ?_⟩, ?_⟩
  · rw [h5]
    simp [createLexer, eofToken, NewToken]
  · rw [List.dropLast_concat]
    exact lexAll_values source ts hts

theorem tokenize_reconstruction_witness :
    (chunks (trace "1 +2".toList.length (createLexer "1 +2".toList))).flatten = "1 +2".toList ∧
    (([⟨.NUMBER, "1".toList⟩, ⟨.PLUS, "+".toList⟩, ⟨.NUMBER, "2".toList⟩,
        ⟨.EOF, "EOF".toList⟩] : List Token).dropLast.map Token.Value).flatten =
      "1 +2".toList.filter fun c => !perlSpace c :=
  have h := tokenize_reconstruction "1 +2".toList
    [⟨.NUMBER, "1".toList⟩, ⟨.PLUS, "+".toList⟩, ⟨.NUMBER, "2".toList⟩, ⟨.EOF, "EOF".toList⟩]
    (by decide)
  ⟨h.1, h.2.2.2.2⟩

/-- C7: whitespace separates tokens without emitting one.  If `Tokenize` returns on `a`
and on `b`, then on `a`, a non-empty run `w` of whitespace characters and `b` put
together it returns the tokens of `a` without the terminal token, followed by all the
tokens of `b`. -/
theorem tokenize_whitespace_separates (a w b : List Char) (ta tb : List Token)
    (ha : Tokenize a = .returned ta) (hb : Tokenize b = .returned tb)
    (hw : w ≠ []) (hws : ∀ c ∈ w, perlSpace c = true) :
    Tokenize (a ++ w ++ b) = .returned (ta.dropLast ++ tb) := by
  obtain ⟨xa, hxa, rfl⟩ := (Tokenize_returned_iff a ta).mp ha
  obtain ⟨xb, hxb, rfl⟩ := (Tokenize_returned_iff b tb).mp hb
  cases w with
  | nil => exact absurd rfl hw
  | cons y w =>
    have hwb : lexAll (y :: (w ++ b)) = .returned xb := by
      rw [← List.cons_append, lexAll_space_append _ _ hws, hxb]
    have := lexAll_append_space a xa hxa y (w ++ b) xb (hws y (by simp)) hwb
    rw [List.append_assoc, List.cons_append, Tokenize_of_lexAll this, List.dropLast_concat,
      List.append_assoc]

theorem tokenize_whitespace_separates_witness :
    Tokenize ("1".toList ++ " ".toList ++ "2".toList) =
      .returned [⟨.NUMBER, "1".toList⟩, ⟨.NUMBER, "2".toList⟩, ⟨.EOF, "EOF".toList⟩] :=
  tokenize_whitespace_separates "1".toList " ".toList "2".toList
    [⟨.NUMBER, "1".toList⟩, ⟨.EOF, "EOF".toList⟩] [⟨.NUMBER, "2".toList⟩, ⟨.EOF, "EOF".toList⟩]
    (by decide) (by decide) (by decide) (by decide)

/-- C8: for the rule table, selecting the first rule that matches at the cursor is the
same as selecting the rule with the longest match there.  At every scanner state the
longest-match selection picks a rule of the table whose match is of maximal length, and
firing it gives the same state (same text consumed, same token emitted) as firing the
first rule that matches; two rules that match with the same length act alike, so no two
rules of distinct kind tie; and a longest-match tokenizer over the same rules gives the
same result as `Tokenize` on every input, token sequence or failure. -/
theorem first_match_is_longest_match :
    (∀ (lex : Lexer) (q : regexPattern) (m : Nat), longestMatch patterns lex = some (q, m) →
      q ∈ patterns ∧ matchLengthAtCursor q.Regex lex = some m ∧
      ∀ r ∈ patterns, ∀ k, matchLengthAtCursor r.Regex lex = some k → k ≤ m) ∧
    (∀ lex : Lexer,
      (longestMatch patterns lex).map (fun b => b.1.handler lex b.1.Regex) =
        firstMatch patterns lex) ∧
    (∀ (lex : Lexer) (p q : regexPattern) (n : Nat), p ∈ patterns → q ∈ patterns →
      matchLengthAtCursor p.Regex lex = some n → matchLengthAtCursor q.Regex lex = some n →
      p.handler lex p.Regex = q.handler lex q.Regex) ∧
    (∀ source : List Char, TokenizeLongest source = Tokenize source) := by
  refine ⟨?_, ?_, ?_, ?_⟩
  · intro lex q m h
    obtain ⟨h1, h2⟩ := longestMatch_mem h
    refine ⟨h1, by rw [matchLengthAtCursor_eq]; exact h2, ?_⟩
    intro r hr k hk
    rw [matchLengthAtCursor_eq] at hk
    exact (longestMatch_some h).2 r hr k hk
  · intro lex
    exact longestMatch_eq_firstMatch patterns lex
      (fun p n hf hn => first_is_longest lex.remainder p n hf hn)
  · intro lex p q n hp hq hpn hqn
    rw [matchLengthAtCursor_eq] at hpn hqn
    exact same_length_same_action lex p q n hp hq hpn hqn
  · intro source
    unfold TokenizeLongest Tokenize
    rw [scanLongest_eq_scan]

/-- C9: a numeric form with two decimal points is split and does not abort.  For
non-empty strings of decimal digits `a`, `b` and `c`, the input `a.b.c` is tokenized as
the `NUMBER` `a.b`, the `DOT`, the `NUMBER` `c` and the terminal token. -/
theorem tokenize_two_points (a b c : List Char)
    (ha : a ≠ []) (had : ∀ x ∈ a, x.isDigit = true)
    (hb : b ≠ []) (hbd : ∀ x ∈ b, x.isDigit = true)
    (hc : c ≠ []) (hcd : ∀ x ∈ c, x.isDigit = true) :
    Tokenize (a ++ '.' :: b ++ '.' :: c) =
      .returned [⟨.NUMBER, a ++ '.' :: b⟩, ⟨.DOT, ['.']⟩, ⟨.NUMBER, c⟩,
        ⟨.EOF, "EOF".toList⟩] := by
  have ga : ∀ x ∈ a, digit x = true := fun x hx => by rw [digit_eq_isDigit]; exact had x hx
  have gb : ∀ x ∈ b, digit x = true := fun x hx => by rw [digit_eq_isDigit]; exact hbd x hx
  have gc : ∀ x ∈ c, digit x = true := fun x hx => by rw [digit_eq_isDigit]; exact hcd x hx
  have h3 := lexAll_integer c hc gc
  cases c with
  | nil => exact absurd rfl hc
  | cons c0 c =>
    have h2 := lexAll_step (next_dot_digit c0 c (gc c0 (by simp))) h3
    have hdot : ('.' :: c0 :: c).head?.any digit = false := by
      simp only [List.head?_cons, Option.any_some]
      decide
    have ht := numberText_frac a b ('.' :: c0 :: c) ga gb hb hdot
    have hm : (a ++ '.' :: b).head?.any digit = true := by
      cases a with
      | nil => exact absurd rfl ha
      | cons a0 a => simpa using ga a0 (by simp)
    have hn := next_number_text (a ++ '.' :: b) ('.' :: c0 :: c) hm
      (by simpa [List.append_assoc] using ht)
    have h1 := lexAll_step hn h2
    have heq : a ++ '.' :: b ++ '.' :: c0 :: c = (a ++ '.' :: b) ++ '.' :: c0 :: c := by
      simp [List.append_assoc]
    rw [heq, Tokenize_of_lexAll h1]
    rfl

theorem tokenize_two_points_witness :
    Tokenize "1.2.3".toList =
      .returned [⟨.NUMBER, "1.2".toList⟩, ⟨.DOT, ".".toList⟩, ⟨.NUMBER, "3".toList⟩,
        ⟨.EOF, "EOF".toList⟩] :=
  tokenize_two_points "1".toList "2".toList "3".toList (by decide) (by decide) (by decide)
    (by decide) (by decide) (by decide)

/-- C10: a leading minus sign is not part of a number literal.  For non-empty strings
of decimal digits `d1` and `d2`, the inputs `-d1` and `-d1.d2` are tokenized as `MINUS`,
then one `NUMBER` holding the literal, then the terminal token. -/
theorem tokenize_minus_number (d1 d2 : List Char)
    (h1 : d1 ≠ []) (h1d : ∀ x ∈ d1, x.isDigit = true)
    (h2 : d2 ≠ []) (h2d : ∀ x ∈ d2, x.isDigit = true) :
    Tokenize ('-' :: d1) =
      .returned [⟨.MINUS, ['-']⟩, ⟨.NUMBER, d1⟩, ⟨.EOF, "EOF".toList⟩] ∧
    Tokenize ('-' :: (d1 ++ '.' :: d2)) =
      .returned [⟨.MINUS, ['-']⟩, ⟨.NUMBER, d1 ++ '.' :: d2⟩, ⟨.EOF, "EOF".toList⟩] := by
  have g1 : ∀ x ∈ d1, digit x = true := fun x hx => by rw [digit_eq_isDigit]; exact h1d x hx
  have g2 : ∀ x ∈ d2, digit x = true := fun x hx => by rw [digit_eq_isDigit]; exact h2d x hx
  have hi := lexAll_integer d1 h1 g1
  have hf := lexAll_decimal d1 d2 h1 g1 h2 g2
  cases d1 with
  | nil => exact absurd rfl h1
  | cons c t =>
    have hc : digit c = true := g1 c (by simp)
    constructor
    · rw [Tokenize_of_lexAll (lexAll_step (next_minus_digit c t hc) hi)]
      rfl
    · rw [List.cons_append] at hf ⊢
      rw [Tokenize_of_lexAll (lexAll_step (next_minus_digit c _ hc) hf)]
      rfl

theorem tokenize_minus_number_witness :
    Tokenize "-5".toList =
      .returned [⟨.MINUS, "-".toList⟩, ⟨.NUMBER, "5".toList⟩, ⟨.EOF, "EOF".toList⟩] ∧
    Tokenize "-3.14".toList =
      .returned [⟨.MINUS, "-".toList⟩, ⟨.NUMBER, "3.14".toList⟩, ⟨.EOF, "EOF".toList⟩] :=
  ⟨(tokenize_minus_number "5".toList "0".toList (by decide) (by decide) (by decide)
      (by decide)).1,
    (tokenize_minus_number "3".toList "14".toList (by decide) (by decide) (by decide)
      (by decide)).2⟩

/-- C12: a shorter operator never shadows a longer one.  At every scanner state whose
remaining text begins with a two-character operator lexeme, the rule the scan step
selects is the rule of that lexeme, and the step emits the token of the operator's kind
with the lexeme as value and advances the cursor by 2. -/
theorem two_char_operator_selected (lex : Lexer) (kind : TokenKind) (a b : Char)
    (hop : (kind, [a, b]) ∈ twoCharOps) (hrem : [a, b] <+: lex.remainder) :
    Selects lex ⟨lit2 a b, defaultHandler kind [a, b]⟩ ∧
    firstMatch patterns lex =
      some (.ok ⟨lex.Tokens ++ [⟨kind, [a, b]⟩], lex.source, lex.pos + 2⟩) := by
  obtain ⟨t, ht⟩ := hrem
  have hn : next lex.remainder = some (some kind, [a, b], t) := by
    rw [← ht]
    exact next_two_char kind a b t hop
  have hf : firstMatch patterns lex =
      some (.ok ⟨lex.Tokens ++ [⟨kind, [a, b]⟩], lex.source, lex.pos + 2⟩) := by
    rw [firstMatch_patterns, hn]
    rfl
  refine ⟨?_, hf⟩
  obtain ⟨p, hs, -⟩ := selects_of_firstMatch hf
  have hk : kind ≠ .NUMBER := by
    intro hk
    subst hk
    revert hop
    simp [twoCharOps]
  obtain ⟨e, -, rfl, hek, het⟩ := selects_symbol hs hn hk
  obtain ⟨k', f, m⟩ := e
  simp only [Symbol.text, List.cons.injEq] at het
  obtain ⟨rfl, rfl⟩ := het
  simp only at hek
  subst hek
  exact hs

theorem two_char_operator_selected_witness :
    firstMatch patterns ⟨[], "1==2".toList, 1⟩ =
      some (.ok ⟨[] ++ [⟨.EQUALS, ['=', '=']⟩], "1==2".toList, 1 + 2⟩) :=
  (two_char_operator_selected ⟨[], "1==2".toList, 1⟩ .EQUALS '=' '=' (by decide)
    ⟨"2".toList, by decide⟩).2

/-- C13: the four duplicate rules of `--` that end the rule table are dead.  The table
is its first 33 rules followed by four copies of the `--` rule; at no scanner state is
the selected rule one of those four; and the scanner built from the first 33 rules gives
the same result as `Tokenize` on every input. -/
theorem duplicate_rules_dead :
    patterns = patterns.take 33 ++ List.replicate 4 duplicateRule ∧
    (patterns.take 33).length = 33 ∧
    (∀ (lex : Lexer) (i : Nat), selectedIndex patterns lex = some i → i < 33) ∧
    (∀ source : List Char, TokenizeWith (patterns.take 33) source = Tokenize source) := by
  refine ⟨rfl, rfl, ?_, ?_⟩
  · intro lex i h
    rw [patterns_duplicates, selectedIndex_append] at h
    cases h1 : selectedIndex (patterns.take 33) lex with
    | some j =>
      simp only [h1, Option.some.injEq] at h
      subst h
      exact selectedIndex_lt _ _ _ h1
    | none =>
      have := duplicates_unmatched lex ((selectedIndex_none_iff _ lex).mp h1)
      rw [(selectedIndex_none_iff _ lex).mpr this] at h
      simp [h1] at h
  · intro source
    unfold TokenizeWith Tokenize
    rw [scanWith_without_duplicates]

/-- C14: the cursor invariant.  In every state reached while `Tokenize` scans an input
the cursor is at most the source length (it is a natural number, so it is never
negative); no action of a rule of the table ever decreases the cursor, from any state;
and along a run the cursor grows from each state to the next. -/
theorem cursor_invariant (source : List Char) :
    (∀ lex ∈ trace source.length (createLexer source),
      0 ≤ lex.pos ∧ lex.pos ≤ source.length) ∧
    (∀ (p : regexPattern) (lex nxt : Lexer), p ∈ patterns →
      p.handler lex p.Regex = .ok nxt → lex.pos ≤ nxt.pos) ∧
    List.Chain' (fun a b : Lexer => a.pos ≤ b.pos)
      (trace source.length (createLexer source)) := by
  have h0 : (createLexer source).pos ≤ (createLexer source).source.length := Nat.zero_le _
  refine ⟨?_, ?_, ?_⟩
  · intro lex h
    have h1 := trace_pos_le _ _ h0 lex h
    rw [trace_source _ _ _ h] at h1
    exact ⟨Nat.zero_le _, h1⟩
  · intro p lex nxt hp h
    exact handler_pos_le hp h
  · exact (trace_pos_chain _ _ h0).imp (fun _ _ h => Nat.le_of_lt h)

/-- C15: every rule action consumes a non-empty text and advances the cursor by exactly
the length of the text its pattern matched at the cursor.  For a rule of the table whose
pattern matches at the cursor with length `n`: `n` is positive and within the remaining
text, the action succeeds and moves the cursor by `n`, and if the action is
`defaultHandler kind value` then `value` has length `n` and is the text matched. -/
theorem action_advances_by_match (lex : Lexer) (p : regexPattern) (n : Nat)
    (hp : p ∈ patterns) (hm : matchLengthAtCursor p.Regex lex = some n) :
    0 < n ∧ n ≤ lex.remainder.length ∧
    (∃ nxt, p.handler lex p.Regex = .ok nxt ∧ nxt.pos = lex.pos + n ∧
      nxt.source = lex.source) ∧
    (∀ kind value, p.handler = defaultHandler kind value →
      value.length = n ∧ value = lex.remainder.take n) := by
  rw [matchLengthAtCursor_eq] at hm
  have hle := matchLen_le hm
  rcases pattern_cases hp hm with ⟨rfl, hs⟩ | ⟨rfl, hd, -⟩ | ⟨e, he, rfl, hpre, hlen, -, -⟩
  · have hn : n = (lex.remainder.takeWhile perlSpace).length := by
      have := matchLen_space lex.remainder
      rw [hs] at this
      simp only [spaceRule] at hm
      rw [hm] at this
      simpa using this
    have hpos : 0 < n := by
      rw [hn]
      cases hr : lex.remainder with
      | nil => simp [hr] at hs
      | cons c t =>
        have hc : perlSpace c = true := by simpa [hr] using hs
        simp [List.takeWhile_cons, hc]
    have hh : spaceRule.handler lex spaceRule.Regex = .ok (lex.advanceN n) := by
      have hfi := findStringIndex_of_matchLen hm
      simp only [spaceRule] at hfi
      simp only [spaceRule, skipHandler, hfi]
    refine ⟨hpos, hle, ⟨_, hh, rfl, rfl⟩, ?_⟩
    intro kind value heq
    have := congrFun (congrFun heq lex) spaceRule.Regex
    rw [hh] at this
    simp [defaultHandler, Lexer.advanceN, Lexer.push] at this
  · have hn : n = (numberText lex.remainder).length := by
      have := matchLen_number lex.remainder
      rw [hd] at this
      simp only [numberRule] at hm
      rw [hm] at this
      simpa using this
    have hpos : 0 < n := by
      rw [hn]
      exact List.length_pos.mpr (numberText_ne_nil hd)
    have hfs : FindString numberRule.Regex lex.remainder = lex.remainder.take n :=
      findString_of_matchLen hm
    have hlen : (lex.remainder.take n).length = n := by
      rw [List.length_take]
      omega
    have hh : numberRule.handler lex numberRule.Regex =
        .ok ((lex.push (NewToken .NUMBER (lex.remainder.take n))).advanceN n) := by
      have : numberRule.handler lex numberRule.Regex =
          .ok ((lex.push (NewToken .NUMBER (FindString numberRule.Regex lex.remainder))).advanceN
            (FindString numberRule.Regex lex.remainder).length) := rfl
      rw [this, hfs, hlen]
    refine ⟨hpos, hle, ⟨_, hh, rfl, rfl⟩, ?_⟩
    intro kind value heq
    have := congrFun (congrFun heq lex) numberRule.Regex
    rw [hh] at this
    simp only [defaultHandler, Lexer.advanceN, Lexer.push, NewToken, Except.ok.injEq,
      Lexer.mk.injEq, List.append_cancel_left_eq, List.cons.injEq, Token.mk.injEq] at this
    rw [← this.1.1.2]
    exact ⟨hlen, rfl⟩
  · have htake : lex.remainder.take n = e.text := by
      rw [hlen]
      exact (List.prefix_iff_eq_take.mp hpre).symm
    have hpos : 0 < n := by
      rw [hlen]
      simp [Symbol.text]
    refine ⟨hpos, hle, ⟨_, rfl, by rw [hlen]; rfl, rfl⟩, ?_⟩
    intro kind value heq
    have := congrFun (congrFun heq lex) e.rule.Regex
    simp only [Symbol.rule, defaultHandler, Lexer.advanceN, Lexer.push, NewToken,
      Except.ok.injEq, Lexer.mk.injEq, List.append_cancel_left_eq, List.cons.injEq,
      Token.mk.injEq] at this
    rw [← this.1.1.2, htake]
    exact ⟨hlen.symm, rfl⟩

theorem action_advances_by_match_witness :
    0 < 2 ∧ 2 ≤ (Lexer.mk [] "a<=b".toList 1).remainder.length ∧
    (∃ nxt, defaultHandler .LESS_EQUALS "<=".toList ⟨[], "a<=b".toList, 1⟩ (lit2 '<' '=') =
        .ok nxt ∧ nxt.pos = 1 + 2 ∧ nxt.source = "a<=b".toList) ∧
    (∀ kind value, defaultHandler .LESS_EQUALS "<=".toList = defaultHandler kind value →
      value.length = 2 ∧ value = (Lexer.mk [] "a<=b".toList 1).remainder.take 2) :=
  action_advances_by_match ⟨[], "a<=b".toList, 1⟩
    ⟨lit2 '<' '=', defaultHandler .LESS_EQUALS "<=".toList⟩ 2 (by simp [patterns])
    (by decide)

/-- C16: `Tokenize` terminates on every input, by returning or by panicking, and a
larger iteration budget gives the same result.  Every iteration of the scan loop that
selects a rule strictly increases the cursor; a run passes through at most
`len(source) + 1` loop-head states, which is at most `len(source)` rule firings; and a
returned sequence has at most `len(source) + 1` tokens. -/
theorem tokenize_terminates (source : List Char) :
    ((∃ tokens, Tokenize source = .returned tokens) ∨
      (∃ msg, Tokenize source = .panicked msg)) ∧
    (∀ fuel, source.length ≤ fuel →
      finish (scan fuel (createLexer source)) = Tokenize source) ∧
    (∀ (lex nxt : Lexer) (p : regexPattern), Selects lex p →
      p.handler lex p.Regex = .ok nxt → lex.pos < nxt.pos) ∧
    (∀ fuel, (trace fuel (createLexer source)).length ≤ source.length + 1) ∧
    (∀ tokens, Tokenize source = .returned tokens → tokens.length ≤ source.length + 1) := by
  refine ⟨?_, ?_, ?_, ?_, ?_⟩
  · have := Tokenize_ne_unfinished source
    cases h : Tokenize source with
    | returned ts => exact Or.inl ⟨ts, rfl⟩
    | panicked msg => exact Or.inr ⟨msg, rfl⟩
    | unfinished => exact absurd h this
  · intro fuel h
    rw [scan_of_le fuel source h]
    rfl
  · intro lex nxt p hs h
    exact selects_pos_lt hs h
  · intro fuel
    have := trace_length_le fuel (createLexer source) (Nat.zero_le _)
    simpa [createLexer] using this
  · intro tokens h
    obtain ⟨ts, hts, rfl⟩ := (Tokenize_returned_iff source tokens).mp h
    have := lexAll_length source ts hts
    simp only [List.length_append, List.length_singleton]
    omega

/-- C17: when `Tokenize` returns, every token before the terminal one has a non-empty
value that is the text of the source at the cursor position at which its rule fired,
`source[p : p + len(value)]`, and the tokens come in increasing order of those positions
without overlap: each token ends at or before the position of every later token. -/
theorem tokens_are_source_slices (source : List Char) (tokens : List Token)
    (h : Tokenize source = .returned tokens) :
    List.Forall₂
      (fun p t => t.Value ≠ [] ∧ t.Value = (source.drop p).take t.Value.length)
      (firingPositions (trace source.length (createLexer source))) tokens.dropLast ∧
    List.Pairwise (fun x y : Nat × Token => x.1 + x.2.Value.length ≤ y.1)
      ((firingPositions (trace source.length (createLexer source))).zip tokens.dropLast) := by
  obtain ⟨ts, hts, rfl⟩ := (Tokenize_returned_iff source tokens).mp h
  have hr : (createLexer source).remainder = source := by simp [createLexer, Lexer.remainder]
  have hts2 : lexRun source.length (createLexer source).remainder = .returned ts := by
    rw [hr]; exact hts
  obtain ⟨h1, -, h3⟩ :=
    firingPositions_props source.length (createLexer source) (Nat.zero_le _) ts hts2
  rw [List.dropLast_concat]
  exact ⟨h1, h3⟩

theorem tokens_are_source_slices_witness :
    firingPositions (trace "1 +2".toList.length (createLexer "1 +2".toList)) = [0, 2, 3] ∧
    List.Forall₂
      (fun p t => t.Value ≠ [] ∧ t.Value = ("1 +2".toList.drop p).take t.Value.length)
      (firingPositions (trace "1 +2".toList.length (createLexer "1 +2".toList)))
      ([⟨.NUMBER, "1".toList⟩, ⟨.PLUS, "+".toList⟩, ⟨.NUMBER, "2".toList⟩,
        ⟨.EOF, "EOF".toList⟩] : List Token).dropLast :=
  ⟨by decide,
    (tokens_are_source_slices "1 +2".toList
      [⟨.NUMBER, "1".toList⟩, ⟨.PLUS, "+".toList⟩, ⟨.NUMBER, "2".toList⟩, ⟨.EOF, "EOF".toList⟩]
      (by decide)).1⟩

/-- C18: the exact success condition of `Tokenize`.  It returns on an input if and only
if every character of the input is a whitespace character, a decimal digit, one of the
single-character symbols or one of `&` and the vertical bar, and every maximal run of
`&` and every maximal run of the vertical bar has even length. -/
theorem tokenize_returns_iff (source : List Char) :
    (∃ tokens, Tokenize source = .returned tokens) ↔
      (∀ c ∈ source, allowedChar c = true) ∧ EvenRuns '&' source ∧ EvenRuns '|' source := by
  constructor
  · rintro ⟨tokens, h⟩
    obtain ⟨ts, hts, -⟩ := (Tokenize_returned_iff source tokens).mp h
    exact good_of_lexAll source ts hts
  · rintro ⟨h1, h2, h3⟩
    obtain ⟨ts, hts⟩ := lexAll_of_good source (fun c hc => supported_of_allowed (h1 c hc)) h2 h3
    exact ⟨_, Tokenize_of_lexAll hts⟩

theorem tokenize_returns_iff_witness :
    (∃ tokens, Tokenize "&&".toList = .returned tokens) ∧
    (¬ ∃ tokens, Tokenize "&".toList = .returned tokens) ∧
    (¬ ∃ tokens, Tokenize "&&&".toList = .returned tokens) :=
  ⟨(tokenize_returns_iff "&&".toList).mpr
      ⟨by decide, (evenRuns_iff_check _ _).mpr (by decide),
        (evenRuns_iff_check _ _).mpr (by decide)⟩,
    fun h => absurd ((evenRuns_iff_check _ _).mp ((tokenize_returns_iff "&".toList).mp h).2.1)
      (by decide),
    fun h => absurd ((evenRuns_iff_check _ _).mp ((tokenize_returns_iff "&&&".toList).mp h).2.1)
      (by decide)⟩

/-- C19: kind and value of the returned tokens agree.  In every sequence `Tokenize`
returns, a token of kind `EOF` has the value `"EOF"`, a token of kind `NUMBER` has a
value made of one or more digits optionally followed by a single `.` and one or more
digits, a token of any other kind has exactly the lexeme the kind table gives for its
kind, and no token value contains a whitespace character. -/
theorem token_kind_value (source : List Char) (tokens : List Token)
    (h : Tokenize source = .returned tokens) :
    ∀ t ∈ tokens,
      (t.Kind = .EOF → t.Value = "EOF".toList) ∧
      (t.Kind = .NUMBER → NumberShape t.Value) ∧
      (t.Kind ≠ .EOF → t.Kind ≠ .NUMBER →
        (t.Kind, t.Value) ∈ kindTable ∧
        ∀ lexeme, (t.Kind, lexeme) ∈ kindTable → lexeme = t.Value) ∧
      (∀ c ∈ t.Value, perlSpace c = false) := by
  obtain ⟨ts, hts, rfl⟩ := (Tokenize_returned_iff source tokens).mp h
  intro t ht
  rcases List.mem_append.mp ht with ht | ht
  · obtain ⟨h1, h2⟩ := lexAll_tokens source ts hts t ht
    have hne := lexAll_kind_ne_eof source ts hts t ht
    refine ⟨fun he => absurd he hne, ?_, ?_, h2⟩
    · intro hk
      rcases h1 with ⟨-, hs⟩ | ⟨e, he, hek, -⟩
      · exact hs
      · exact absurd (hek ▸ hk) (symbols_in_kindTable e he).1
    · intro _ hnum
      rcases h1 with ⟨hk, -⟩ | ⟨e, he, hek, hev⟩
      · exact absurd hk hnum
      · obtain ⟨-, h3, h4⟩ := symbols_in_kindTable e he
        rw [hek, hev]
        exact ⟨h3, fun lexeme hl => h4 (e.kind, lexeme) hl rfl⟩
  · simp only [List.mem_singleton] at ht
    subst ht
    refine ⟨fun _ => rfl, fun hk => ?_, fun hk => absurd rfl hk, by decide⟩
    cases hk

theorem token_kind_value_witness :
    NumberShape "3.14".toList ∧ (TokenKind.LESS_EQUALS, "<=".toList) ∈ kindTable :=
  ⟨(token_kind_value "3.14 <=".toList
      [⟨.NUMBER, "3.14".toList⟩, ⟨.LESS_EQUALS, "<=".toList⟩, ⟨.EOF, "EOF".toList⟩]
      (by decide) ⟨.NUMBER, "3.14".toList⟩ (by decide)).2.1 rfl,
    ((token_kind_value "3.14 <=".toList
      [⟨.NUMBER, "3.14".toList⟩, ⟨.LESS_EQUALS, "<=".toList⟩, ⟨.EOF, "EOF".toList⟩]
      (by decide) ⟨.LESS_EQUALS, "<=".toList⟩ (by decide)).2.2.1 (by decide) (by decide)).1⟩

/-- C20: empty and blank inputs.  `Tokenize` returns exactly the single terminal token
on the empty input and on every input that consists of whitespace characters only. -/
theorem tokenize_blank (w : List Char) (hw : ∀ c ∈ w, perlSpace c = true) :
    Tokenize [] = .returned [⟨.EOF, "EOF".toList⟩] ∧
    Tokenize w = .returned [⟨.EOF, "EOF".toList⟩] := by
  refine ⟨by decide, ?_⟩
  have h := lexAll_space_append w [] hw
  rw [List.append_nil, lexAll_nil] at h
  rw [Tokenize_of_lexAll h]
  rfl

theorem tokenize_blank_witness :
    Tokenize [] = .returned [⟨.EOF, "EOF".toList⟩] ∧
    Tokenize " \t\n ".toList = .returned [⟨.EOF, "EOF".toList⟩] :=
  tokenize_blank " \t\n ".toList (by decide)

end PrattLexer
